import Mathlib

/-!
# Verification of the boomerang expression core and signature engine

This file gives a shallow embedding, in Lean 4, of the parts of the
boomerang decompiler sources `src/db/exp.cpp` and `src/db/signature.cpp`
that the specification's testable properties talk about, and settles those
properties against the embedding.

Modelling conventions, used throughout:

* The C++ class hierarchy `Exp` / `Const` / `Terminal` / `Unary` / `Binary` /
  `Ternary` / `TypedExp` / `RefExp` / `Location` becomes one inductive type
  `Exp`.  `Location` is a `Unary`-shaped node whose extra field (the owning
  procedure) plays no role in equality, search, simplification or the
  signature queries modelled here (the only uses, the float-constant lookup
  in `Ternary::polySimplify` and DOT output, are outside the modelled
  fragment), so `Location` nodes are represented as `Exp.unary` nodes with
  the corresponding operator tag, exactly as they compare and clone.  The
  behaviour `Location` *overrides* is still modelled: its `polySimplify`
  (exp.cpp:3817-3835), which wraps `Unary::polySimplify` and adds the
  counted `m[a[x]] → x` collapse, is embedded as `locStep` below and is
  dispatched on the nodes that carry a `Location` tag.
* C++ `int` is modelled as `Int` carrying the signed value; every arithmetic
  operation of the source that can wrap is performed with an explicit
  reduction modulo `2^32` (`wrap32`, `toU32`, `ofU32` below), i.e. the
  two's-complement behaviour of the 32-bit targets the decompiler is built
  for.  Where the C++ source has undefined behaviour (shift counts that are
  negative or `≥ 32` on the unguarded paths, division by zero) the model
  picks a total completion which is documented at the definition; no theorem
  below depends on those corners except where the divergence itself is the
  point, and there only defined-behaviour inputs are used.
* The operator enumeration `OPER`, the class declarations and the small
  tag predicates (`isTrue`, `isBoolConst`, `isAddrOf`, ...) live in `exp.h`,
  which is not part of the provided sources; they are modelled from the
  specification's §3/§4.B descriptions (a closed tag enumeration; cheap
  predicates on the tag).  Only the operators exercised by the claims are
  included: the float-typed operators (`opFltConst`, `opFMinus`, `opFsize`,
  `opItof`, ...) are omitted, because their payloads are IEEE doubles and
  bit-casts which have no shallow embedding; the rules of `polySimplify`
  that are guarded by those operators therefore do not appear in the
  embedded simplifier, and all quantified theorems below quantify over the
  embedded fragment.
* Statements (`Instruction *` definitions inside `RefExp`) and types are
  external to the two provided files (`statement.h`, `types.h` are absent).
  They are modelled from the spec: a definition reference is Absent /
  Wildcard / Present(id, implicit-flag) (§9 "The sentinel wild def is a
  tagged variant"), and a type is void or a sized integer (§3).  Because the
  modelled definition carries no declared type, the compound-type rewrite of
  `Binary::polySimplify` (guard `ty && ty->resolvesToPointer() && ...`,
  exp.cpp:2914-2931) never fires, and because it carries no assignment
  payload, the Pentium `r0`/`r24` aliasing rule of `RefExp::polySimplify`
  (exp.cpp:3235-3240) never fires; both rules are omitted from the embedded
  simplifier with their guards modelled as false.
-/

/-- The operator tag (`OPER`, from `exp.h`, modelled from spec §3: a closed
enumeration partitioned into constants, terminals, unary, binary, ternary
operators, a typed wrapper, an SSA subscript, and wildcard tags).  Only the
members exercised by the modelled fragment are included. -/
inductive Oper where
  | opIntConst | opStrConst
  | opTrue | opFalse | opPC | opDF
  | opWild | opWildIntConst | opWildStrConst
  | opWildMemOf | opWildRegOf | opWildAddrOf
  | opNeg | opNot | opLNot
  | opAddrOf | opMemOf | opRegOf
  | opGlobal | opLocal | opParam | opTemp
  | opInitValueOf
  | opSubscript | opTypedExp
  | opPlus | opMinus | opMult | opMults | opDiv | opDivs | opMod | opMods
  | opShiftL | opShiftR | opShiftRA
  | opBitOr | opBitAnd | opBitXor
  | opAnd | opOr
  | opEquals | opNotEqual
  | opLess | opGtr | opLessEq | opGtrEq
  | opLessUns | opGtrUns | opLessEqUns | opGtrEqUns
  | opSize
  | opTern | opSgnEx | opZfill | opTruncu | opTruncs
deriving DecidableEq, Repr

/-- The payload of a `Const` node (the union `u` plus `strin` of class
`Const`): a signed 32-bit integer or a string.  (Float, 64-bit and
function-pointer payloads are outside the modelled fragment.) -/
inductive CVal where
  | intVal (i : Int)
  | strVal (s : String)
deriving DecidableEq, Repr

/-- Modelled from the spec: a resolved type (`Type`, from the absent
`types.h`), as far as the modelled fragment needs it — void or a sized
integer (§3 data model; the `IntegerType::get(16)` of the `r0` aliasing
rule).  Structural equality decides `Type::operator==`. -/
inductive Ty where
  | voidTy
  | integerTy (size : Nat)
deriving DecidableEq, Repr

/-- Modelled from the spec: the non-owning definition reference carried by a
`RefExp` (`Instruction *def`).  Spec §9: "The sentinel wild def is a tagged
variant on the def reference (Absent / Wildcard / Present(id))"; a present
definition additionally knows whether it is an implicit assignment
(`Instruction::isImplicit`), which is what `RefExp::operator==` consults. -/
inductive DefRef where
  | dwild
  | dnull
  | dstmt (id : Nat) (implicit : Bool)
deriving DecidableEq, Repr

/-- The expression tree (classes `Const`, `Terminal`, `Unary`/`Location`,
`Binary`, `Ternary`, `TypedExp`, `RefExp` of `exp.cpp`).  A `Const` carries
its operator tag, payload and conscript; a `TypedExp` carries its owned
type; a `RefExp` carries its definition reference. -/
inductive Exp where
  | const (op : Oper) (v : CVal) (conscript : Int)
  | terminal (op : Oper)
  | unary (op : Oper) (e : Exp)
  | binary (op : Oper) (a : Exp) (b : Exp)
  | ternary (op : Oper) (a : Exp) (b : Exp) (c : Exp)
  | typedExp (t : Ty) (e : Exp)
  | refExp (e : Exp) (d : DefRef)
deriving DecidableEq, Repr

namespace Exp

/-- `Exp::getOper` — the dynamic tag of a node.  A `TypedExp` was constructed
with tag `opTypedExp` and a `RefExp` with tag `opSubscript` (constructors in
exp.cpp:98-108). -/
def getOper : Exp → Oper
  | .const op _ _ => op
  | .terminal op => op
  | .unary op _ => op
  | .binary op _ _ => op
  | .ternary op _ _ _ => op
  | .typedExp _ _ => .opTypedExp
  | .refExp _ _ => .opSubscript

/-- First child of a node, when its shape has one (`getSubExp1`); `none`
models the undefined behaviour of calling `getSubExp1` on a leaf. -/
def sub1 : Exp → Option Exp
  | .unary _ e => some e
  | .binary _ a _ => some a
  | .ternary _ a _ _ => some a
  | .typedExp _ e => some e
  | .refExp e _ => some e
  | _ => none

/-- `RefExp::isImplicitDef` (declared in the absent `exp.h`; modelled from
the symmetric branch of `RefExp::operator==`, exp.cpp:415, which spells it
out as `def && def->isImplicit()`): the definition is a present implicit
assignment. -/
def isImplicitDef : DefRef → Bool
  | .dstmt _ impl => impl
  | _ => false

/-- Equality of two definition references after the subexpressions matched:
the tail of `RefExp::operator==` (exp.cpp:406-417).  A wild def on either
side matches; a null def matches an implicit definition; otherwise pointer
equality. -/
def defEq (d od : DefRef) : Bool :=
  if d = .dwild then true
  else if od = .dwild then true
  else if d = .dnull ∧ isImplicitDef od then true
  else if od = .dnull ∧ (d ≠ .dnull) ∧ isImplicitDef d then true
  else d = od

/-- Strict structural equality, `Exp::operator==` and its overrides
(exp.cpp:310-426), with the virtual dispatch of the C++ realised by the
outer match on the left operand.  Where the C++ would cast the right operand
to a shape it does not have (undefined behaviour, unreachable for the trees
the program builds), the model returns `false`; the `assert(false)` on a
`Const` whose tag is not an int/float/string constant is likewise modelled
as `false`. -/
def eqE : Exp → Exp → Bool
  | .const op v c, o =>
    -- Const::operator== (exp.cpp:310-334)
    if o.getOper = .opWild then true
    else if o.getOper = .opWildIntConst ∧ op = .opIntConst then true
    else if o.getOper = .opWildStrConst ∧ op = .opStrConst then true
    else if op ≠ o.getOper then false
    else match o with
      | .const _ ov oc =>
        -- exp.cpp:320: `(conscript && conscript != o.conscript) || o.conscript`
        if (c ≠ 0 ∧ c ≠ oc) ∨ oc ≠ 0 then false
        else match op, v, ov with
          | .opIntConst, .intVal i, .intVal oi => i = oi
          | .opStrConst, .strVal s, .strVal os => s = os
          | _, _, _ => false
      | _ => false
  | .terminal op, o =>
    -- Terminal::operator== (exp.cpp:374-387)
    if op = .opWildIntConst then o.getOper = .opIntConst
    else if op = .opWildStrConst then o.getOper = .opStrConst
    else if op = .opWildMemOf then o.getOper = .opMemOf
    else if op = .opWildRegOf then o.getOper = .opRegOf
    else if op = .opWildAddrOf then o.getOper = .opAddrOf
    else (op = .opWild) ∨ (o.getOper = .opWild) ∨ (op = o.getOper)
  | .unary op e, o =>
    -- Unary::operator== (exp.cpp:335-347)
    if o.getOper = .opWild then true
    else if o.getOper = .opWildRegOf ∧ op = .opRegOf then true
    else if o.getOper = .opWildMemOf ∧ op = .opMemOf then true
    else if o.getOper = .opWildAddrOf ∧ op = .opAddrOf then true
    else if op ≠ o.getOper then false
    else match o.sub1 with
      | some oe => eqE e oe
      | none => false
  | .binary op a b, o =>
    -- Binary::operator== (exp.cpp:348-359); the `dynamic_cast<const
    -- Binary*>` succeeds for Binary and for its subclass Ternary.
    if o.getOper = .opWild then true
    else match o with
      | .binary oop oa ob =>
        if op ≠ oop then false else eqE a oa && eqE b ob
      | .ternary oop oa ob _ =>
        if op ≠ oop then false else eqE a oa && eqE b ob
      | _ => false
  | .ternary op a b c, o =>
    -- Ternary::operator== (exp.cpp:361-373)
    if o.getOper = .opWild then true
    else match o with
      | .ternary oop oa ob oc =>
        if op ≠ oop then false else eqE a oa && eqE b ob && eqE c oc
      | _ => false
  | .typedExp t e, o =>
    -- TypedExp::operator== (exp.cpp:388-397); compares the types strictly,
    -- then the subexpressions.
    if o.getOper = .opWild then true
    else match o with
      | .typedExp ot oe => if t ≠ ot then false else eqE e oe
      | _ => false
  | .refExp e d, o =>
    -- RefExp::operator== (exp.cpp:399-418)
    if o.getOper = .opWild then true
    else if o.getOper ≠ .opSubscript then false
    else match o with
      | .refExp oe od => if ¬ eqE e oe then false else defEq d od
      | _ => false

end Exp

namespace Exp

/-- Number of nodes of a tree (not a source function; the measure used by
the termination arguments below). -/
def esize : Exp → Nat
  | .const _ _ _ => 1
  | .terminal _ => 1
  | .unary _ e => 1 + esize e
  | .binary _ a b => 1 + esize a + esize b
  | .ternary _ a b c => 1 + esize a + esize b + esize c
  | .typedExp _ e => 1 + esize e
  | .refExp e _ => 1 + esize e

/-- `Exp::clone` and its overrides (exp.cpp:270-301): a deep copy.  In value
semantics a deep copy rebuilds the same value, which `cloneE_id` below makes
precise; the definition still mirrors the recursive structure of the
source. -/
def cloneE : Exp → Exp
  | .const op v c => .const op v c
  | .terminal op => .terminal op
  | .unary op e => .unary op (cloneE e)
  | .binary op a b => .binary op (cloneE a) (cloneE b)
  | .ternary op a b c => .ternary op (cloneE a) (cloneE b) (cloneE c)
  | .typedExp t e => .typedExp t (cloneE e)
  | .refExp e d => .refExp (cloneE e) d

/-- `Exp::doSearch` together with the `doSearchChildren` overrides
(exp.cpp:1878-1927), for the all-occurrences case (`once = false`), returning
the list of matched subtrees in the traversal order in which the source
appends them to `li`.  At each node the source compares `search == *node`
(pattern on the left), records a hit, and recurses into the children unless
the node matched and is an `opSubscript`; `Unary::doSearchChildren` skips
the child of an `opInitValueOf` node; `Const` and `Terminal` have no
children to search. -/
def doSearchL (pat : Exp) : Exp → List Exp
  | .const op v cs =>
    if eqE pat (.const op v cs) then [Exp.const op v cs] else []
  | .terminal op =>
    if eqE pat (.terminal op) then [Exp.terminal op] else []
  | .unary op c =>
    let cmp := eqE pat (.unary op c)
    (if cmp then [Exp.unary op c] else []) ++
      (if ¬ cmp ∨ op ≠ .opSubscript then
        (if op = .opInitValueOf then [] else doSearchL pat c)
      else [])
  | .binary op a b =>
    let cmp := eqE pat (.binary op a b)
    (if cmp then [Exp.binary op a b] else []) ++
      (if ¬ cmp ∨ op ≠ .opSubscript then doSearchL pat a ++ doSearchL pat b
       else [])
  | .ternary op a b c =>
    let cmp := eqE pat (.ternary op a b c)
    (if cmp then [Exp.ternary op a b c] else []) ++
      (if ¬ cmp ∨ op ≠ .opSubscript then
        doSearchL pat a ++ doSearchL pat b ++ doSearchL pat c
      else [])
  | .typedExp t c =>
    let cmp := eqE pat (.typedExp t c)
    (if cmp then [Exp.typedExp t c] else []) ++
      (if ¬ cmp ∨ (Exp.typedExp t c).getOper ≠ .opSubscript then doSearchL pat c
       else [])
  | .refExp c d =>
    -- a RefExp's tag is opSubscript: no recursion below a matching subscript
    let cmp := eqE pat (.refExp c d)
    (if cmp then [Exp.refExp c d] else []) ++
      (if ¬ cmp ∨ (Exp.refExp c d).getOper ≠ .opSubscript then doSearchL pat c
       else [])

/-- `Exp::search` (exp.cpp:1988-2000): whether `doSearch` finds at least one
occurrence of the pattern. -/
def searchFound (pat e : Exp) : Bool := doSearchL pat e ≠ []

/-- `Exp::searchReplaceAll` with `once = false` (exp.cpp:1957-1977).

The source runs `doSearch` to collect, in pre-order, pointers to the parent
slots of all matches, then overwrites each collected slot with a clone of
the replacement.  Because the slots are collected before any overwrite and
are processed outermost-first (pre-order), overwriting an outer slot
detaches the subtree that contains every slot collected strictly below it:
the later writes mutate nodes that are no longer reachable from the
returned root (the trees are DAG-free, spec §3 invariant), so the returned
tree is the input with each *outermost* match replaced by a clone of the
replacement, and with no search inside the inserted clones (the hit list
was fixed before the writes).  That effective semantics is what this
function computes, following the same traversal as `doSearch` (no descent
below a replaced node, below an `opInitValueOf`, or into anything else a
leaf). -/
def replaceAll (e pat rep : Exp) : Exp :=
  if eqE pat e then cloneE rep
  else match e with
    | .unary op c =>
      if op = .opInitValueOf then .unary op c
      else .unary op (replaceAll c pat rep)
    | .binary op a b => .binary op (replaceAll a pat rep) (replaceAll b pat rep)
    | .ternary op a b c =>
      .ternary op (replaceAll a pat rep) (replaceAll b pat rep) (replaceAll c pat rep)
    | .typedExp t c => .typedExp t (replaceAll c pat rep)
    | .refExp c d => .refExp (replaceAll c pat rep) d
    | L => L

end Exp

/-! ## 32-bit two's-complement arithmetic

Helpers modelling C++ `int` / `unsigned` operations on the 32-bit targets
of the decompiler.  `toU32` reads a signed value as its unsigned 32-bit
bit pattern, `ofU32` converts back (the `(int)` cast), `wrap32` normalises
any integer to the signed value with the same low 32 bits. -/

def toU32 (i : Int) : Nat := (i % (2 ^ 32 : Int)).toNat

def ofU32 (n : Nat) : Int := if n < 2 ^ 31 then (n : Int) else (n : Int) - 2 ^ 32

def wrap32 (x : Int) : Int := ((x + 2 ^ 31) % 2 ^ 32) - 2 ^ 31

/-- Arithmetic (sign-extending) right shift of a signed value: floor
division by a power of two. -/
def asr (a : Int) (k : Nat) : Int := Int.fdiv a (2 ^ k)

/-- Logical (zero-filling) right shift of the 32-bit pattern. -/
def lsr32 (a : Int) (k : Nat) : Int := ofU32 (toU32 a / 2 ^ k)

/-- Left shift with 32-bit wrap-around. -/
def shl32 (a : Int) (k : Nat) : Int := wrap32 (a * 2 ^ k)

def land32 (a b : Int) : Int := ofU32 (Nat.land (toU32 a) (toU32 b))

def lor32 (a b : Int) : Int := ofU32 (Nat.lor (toU32 a) (toU32 b))

def lxor32 (a b : Int) : Int := ofU32 (Nat.xor (toU32 a) (toU32 b))

/-- C++ `~` on a 32-bit int: two's-complement bitwise not. -/
def bnot32 (a : Int) : Int := wrap32 (-a - 1)

namespace Exp

/-! ## Arithmetic partition (C5) -/

/-- The default branch of `Exp::partitionTerms` (exp.cpp:2072-2078): any
other subtree goes whole into the positive or the negative bag. -/
def ptDefault (e : Exp) (negate : Bool) : List Exp × List Exp × List Int :=
  if negate then ([], [e], []) else ([e], [], [])

/-- `Exp::partitionTerms` (exp.cpp:2044-2079): partition a `+`/`-` tree into
positive non-integer terms, negative non-integer terms, and signed integer
terms; `opTypedExp` wrappers are transparent; everything else lands whole in
a bag.  The three result lists are the `positives`, `negatives`, `integers`
output parameters, each in the order the source appends to them.  (The
source reads the integer payload with `static_cast<Const*>(this)->getInt()`,
valid only on an actual `Const`; the unreachable mismatched-shape corners
fall to the default branch here.) -/
def partitionTerms : Exp → Bool → List Exp × List Exp × List Int
  | .binary op a b, negate =>
    if op = .opPlus then
      let r1 := partitionTerms a negate
      let r2 := partitionTerms b negate
      (r1.1 ++ r2.1, r1.2.1 ++ r2.2.1, r1.2.2 ++ r2.2.2)
    else if op = .opMinus then
      let r1 := partitionTerms a negate
      let r2 := partitionTerms b (!negate)
      (r1.1 ++ r2.1, r1.2.1 ++ r2.2.1, r1.2.2 ++ r2.2.2)
    else ptDefault (.binary op a b) negate
  | .typedExp t c, negate =>
    -- case opTypedExp: recurse through the wrapper (exp.cpp:2060-2063)
    if (Exp.typedExp t c).getOper = .opTypedExp then partitionTerms c negate
    else ptDefault (.typedExp t c) negate
  | .const .opIntConst (.intVal k) cs, negate =>
    if (Exp.const .opIntConst (.intVal k) cs).getOper = .opIntConst then
      ([], [], [if negate then -k else k])
    else ptDefault (.const .opIntConst (.intVal k) cs) negate
  | e, negate => ptDefault e negate

/-- Modelled from the spec (§8 property 7 "the integer evaluation above",
§4.F): the integer evaluation of a `+`/`-` tree over integer constants and
arbitrary other subterms, the latter valued by an environment.  The value is
kept as an unbounded integer; the 32-bit two's-complement value is its
residue modulo `2^32`, which is how the correctness theorem compares the two
sides. -/
def evalPM (env : Exp → Int) : Exp → Int
  | .binary op a b =>
    if op = .opPlus then evalPM env a + evalPM env b
    else if op = .opMinus then evalPM env a - evalPM env b
    else env (.binary op a b)
  | .typedExp t c =>
    if (Exp.typedExp t c).getOper = .opTypedExp then evalPM env c
    else env (.typedExp t c)
  | .const .opIntConst (.intVal k) cs =>
    if (Exp.const .opIntConst (.intVal k) cs).getOper = .opIntConst then k
    else env (.const .opIntConst (.intVal k) cs)
  | e => env e

/-- Sum of the evaluations of the expressions in a bag. -/
def sumBag (env : Exp → Int) (l : List Exp) : Int := (l.map (evalPM env)).sum

/-- Sum of the integer bag. -/
def sumInts (l : List Int) : Int := l.sum

end Exp

namespace Exp

/-! ## The polymorphic simplifier

The embedding of `Exp::simplify` (exp.cpp:2230-2258) and the `polySimplify`
overrides (exp.cpp:2267-2385 `Unary`, 2422-3081 `Binary`, 3083-3198
`Ternary`, 3200-3212 `TypedExp`, 3214-3245 `RefExp`; the base
`Exp::polySimplify`, declared in the absent `exp.h`, performs no rewrite —
spec §4.G lists no rules for bare constants and terminals — and is modelled
as the identity).

The mutual recursion pass/driver of the source (the driver loop in
`simplify`, and `TypedExp::polySimplify` calling `simplify` on its child) is
realised by one function `runF` that is structural in an explicit fuel
argument, so that it reduces definitionally; every fuel-exhaustion branch
returns its argument unchanged, and the fuels used by the top-level wrappers
are generous enough that exhaustion is unreachable on the inputs of every
theorem below (the fuel-controlled statements are proved with explicit fuel
bounds).

`bMod` — the by-reference modification flag that the source threads through
a whole pass and that accumulates monotonically — is threaded explicitly as
the `Bool` in and out of each step.  The three commutation canonicalisations
and the `a + -K → a - K` rewrite do not touch it, exactly as in the source
("This is not counted as a modification", exp.cpp:2552/2560/2569/2614). -/

/-- Payload of an integer constant (`Const::getInt` guarded by
`getOper() == opIntConst`); `none` when the node is not an integer-payload
constant (an `opIntConst` tag on a non-`Const` shape or a non-integer
payload is undefined behaviour in the source and never matches here). -/
def intConstVal : Exp → Option Int
  | .const .opIntConst (.intVal k) _ => some k
  | _ => none

/-- Integer constant payload together with its conscript, for the rules
that mutate a constant in place with `setInt` (which keeps the conscript). -/
def intConstParts : Exp → Option (Int × Int)
  | .const .opIntConst (.intVal k) cs => some (k, cs)
  | _ => none

/-- A fresh integer constant, `Const::get(k)`: conscript 0. -/
def mkInt (k : Int) : Exp := .const .opIntConst (.intVal k) 0

def isTrueE (e : Exp) : Bool := e.getOper = .opTrue

def isFalseE (e : Exp) : Bool := e.getOper = .opFalse

/-- `isBoolConst` (exp.h, modelled from spec §4.B): a boolean constant
terminal. -/
def isBoolConst (e : Exp) : Bool := e.getOper = .opTrue ∨ e.getOper = .opFalse

/-- `isLocation` (exp.h, modelled from spec §4.B/§3: the `Location` tags). -/
def isLocation (e : Exp) : Bool :=
  e.getOper = .opMemOf ∨ e.getOper = .opRegOf ∨ e.getOper = .opLocal ∨
    e.getOper = .opGlobal ∨ e.getOper = .opParam ∨ e.getOper = .opTemp

/-- The constant-folding switch of `Binary::polySimplify`
(exp.cpp:2438-2516): `some` folded value when the operator folds (`change`),
`none` otherwise.  Notes on the C++ semantics modelled:
* `+ - *` wrap modulo `2^32` (signed overflow is wrapped by the 32-bit
  targets);
* `opDiv`/`opMod` cast to `unsigned`; division by zero is undefined in the
  source and modelled by Lean's `0`-valued division;
* `opShiftL` is guarded (`k2 >= 32` gives 0) but `opShiftR` is *not*: the
  source computes `k1 >> k2` on a signed `int`, which on the targets is an
  arithmetic (sign-extending) shift — modelled by `asr` — so a negative
  `k1` keeps its sign bit instead of shifting in zeroes, and `k2 ≥ 32` is
  undefined behaviour (modelled by the total `asr`, which is what the
  hardware shift produces for counts below 32 only);
* `opShiftRA` ORs the mask `((1 << k2) - 1) << (32 - k2)` in
  *unconditionally*, so the high bits are set to 1 whatever the sign of
  `k1`; negative shift counts (undefined in the source) are totalised with
  `Int.toNat`. -/
def foldBin (op : Oper) (k1 k2 : Int) : Option Int :=
  match op with
  | .opPlus => some (wrap32 (k1 + k2))
  | .opMinus => some (wrap32 (k1 - k2))
  | .opDiv => some (ofU32 (toU32 k1 / toU32 k2))
  | .opDivs => some (wrap32 (Int.tdiv k1 k2))
  | .opMod => some (ofU32 (toU32 k1 % toU32 k2))
  | .opMods => some (wrap32 (Int.tmod k1 k2))
  | .opMult => some (wrap32 (k1 * k2))
  | .opMults => some (wrap32 (k1 * k2))
  | .opShiftL => some (if 32 ≤ k2 then 0 else shl32 k1 k2.toNat)
  | .opShiftR => some (asr k1 k2.toNat)
  | .opShiftRA =>
    some (lor32 (asr k1 k2.toNat)
      (shl32 (wrap32 (shl32 1 k2.toNat - 1)) (32 - k2).toNat))
  | .opBitOr => some (lor32 k1 k2)
  | .opBitAnd => some (land32 k1 k2)
  | .opBitXor => some (lxor32 k1 k2)
  | .opEquals => some (if k1 = k2 then 1 else 0)
  | .opNotEqual => some (if k1 = k2 then 0 else 1)
  | .opLess => some (if k1 < k2 then 1 else 0)
  | .opGtr => some (if k2 < k1 then 1 else 0)
  | .opLessEq => some (if k1 ≤ k2 then 1 else 0)
  | .opGtrEq => some (if k2 ≤ k1 then 1 else 0)
  | .opLessUns => some (if toU32 k1 < toU32 k2 then 1 else 0)
  | .opGtrUns => some (if toU32 k2 < toU32 k1 then 1 else 0)
  | .opLessEqUns => some (if toU32 k1 ≤ toU32 k2 then 1 else 0)
  | .opGtrEqUns => some (if toU32 k2 ≤ toU32 k1 then 1 else 0)
  | _ => none

/-- `Exp::setOper` applied by the rewrite rules: reassigns the tag field.
(The rules only apply it to `Binary`-shaped comparison nodes and to the
result of in-place plus-minus flips; on the shapes whose tag is implicit in the
class — `TypedExp`, `RefExp` — no rule ever calls it, and the model keeps
them unchanged.) -/
def setOperE (e : Exp) (newOp : Oper) : Exp :=
  match e with
  | .const _ v cs => .const newOp v cs
  | .terminal _ => .terminal newOp
  | .unary _ c => .unary newOp c
  | .binary _ a b => .binary newOp a b
  | .ternary _ a b c => .ternary newOp a b c
  | .typedExp t c => .typedExp t c
  | .refExp c d => .refExp c d

end Exp

namespace Exp

/-- The guard of the third commutation (exp.cpp:2564-2565):
`subExp2->isAddrOf() && subExp2->getSubExp1()->isSubscript() &&
subExp2->getSubExp1()->getSubExp1()->isGlobal()`. -/
def isAddrOfSubGlobal (e : Exp) : Bool :=
  (e.getOper == .opAddrOf) &&
    (match e.sub1 with
     | some c =>
       (c.getOper == .opSubscript) &&
         (match c.sub1 with
          | some g => g.getOper == .opGlobal
          | none => false)
     | none => false)

/-- Constant folding and the self-operation rules of `Binary::polySimplify`
(exp.cpp:2433-2544): `k1 op k2` folding, `x ^ x`/`x - x → 0`,
`x | x`/`x & x → x`, `x == x → true`.  `some` when a (counted) rule fired. -/
def binA (op : Oper) (s1 s2 : Exp) : Option (Exp × Bool) :=
  match intConstVal s1, intConstVal s2 with
  | some k1, some k2 =>
    match foldBin op k1 k2 with
    | some k => some (mkInt k, true)
    | none => binA2 op s1 s2
  | _, _ => binA2 op s1 s2
where
  binA2 (op : Oper) (s1 s2 : Exp) : Option (Exp × Bool) :=
    if (op = .opBitXor ∨ op = .opMinus) ∧ eqE s1 s2 then some (mkInt 0, true)
    else if (op = .opBitOr ∨ op = .opBitAnd) ∧ eqE s1 s2 then some (s1, true)
    else if op = .opEquals ∧ eqE s1 s2 then some (.terminal .opTrue, true)
    else none

/-- The three commutation canonicalisations (exp.cpp:2546-2570), which are
*not* counted as modifications: integer constant left of `+ × ×! | &`;
boolean constant left of `and`/`or`; addr-of of a subscripted global on the
right of `+`.  Returns the possibly swapped children. -/
def binCommute (op : Oper) (s1 s2 : Exp) : Exp × Exp :=
  let p1 :=
    if s1.getOper = .opIntConst ∧
        (op = .opPlus ∨ op = .opMult ∨ op = .opMults ∨ op = .opBitOr ∨
          op = .opBitAnd) then
      (s2, s1)
    else (s1, s2)
  let p2 :=
    if isBoolConst p1.1 ∧ ¬ isBoolConst p1.2 ∧ (op = .opAnd ∨ op = .opOr) then
      (p1.2, p1.1)
    else p1
  if isAddrOfSubGlobal p2.2 ∧ op = .opPlus then (p2.2, p2.1) else p2

/-- Rules exp.cpp:2572-2610: `(x + a) + b → x + (a+b)`,
`(x - a) + b → x + (-a+b)`, `(x * k) ± x → x * (k±1)`,
`x + (x * k) → x * (k+1)` (the in-place `setInt` keeps the mutated
constant's conscript). -/
def binD1 (op : Oper) (s1 s2 : Exp) : Option (Exp × Bool) :=
  if op = .opPlus ∧ s1.getOper = .opPlus then
    match s1, intConstVal s2 with
    | .binary .opPlus x a2, some n =>
      match intConstParts a2 with
      | some (a, cs) =>
        some (.binary .opPlus x (.const .opIntConst (.intVal (wrap32 (a + n))) cs), true)
      | none => binD1b op s1 s2
    | _, _ => binD1b op s1 s2
  else binD1b op s1 s2
where
  binD1b (op : Oper) (s1 s2 : Exp) : Option (Exp × Bool) :=
    if op = .opPlus ∧ s1.getOper = .opMinus then
      match s1, intConstVal s2 with
      | .binary .opMinus x a2, some n =>
        match intConstParts a2 with
        | some (a, cs) =>
          some (.binary .opPlus x (.const .opIntConst (.intVal (wrap32 (-a + n))) cs), true)
        | none => binD1c op s1 s2
      | _, _ => binD1c op s1 s2
    else binD1c op s1 s2
  binD1c (op : Oper) (s1 s2 : Exp) : Option (Exp × Bool) :=
    match s1 with
    | .binary m x k =>
      if (op = .opMinus ∨ op = .opPlus) ∧ (m = .opMults ∨ m = .opMult) ∧
          eqE s2 x then
        some (.binary m x (.binary op k (mkInt 1)), true)
      else binD1d op s1 s2
    | _ => binD1d op s1 s2
  binD1d (op : Oper) (s1 s2 : Exp) : Option (Exp × Bool) :=
    match s2 with
    | .binary m y k =>
      if op = .opPlus ∧ (m = .opMults ∨ m = .opMult) ∧ eqE s1 y then
        some (.binary m y (.binary .opPlus k (mkInt 1)), true)
      else none
    | _ => none

/-- The uncounted `a + -K → a - K` / `a - -K → a + K` flip
(exp.cpp:2612-2618): mutates the operator and the constant (keeping its
conscript) and does not count as a change. -/
def binFlip (op : Oper) (s1 s2 : Exp) : Oper × Exp × Exp :=
  if op = .opPlus ∨ op = .opMinus then
    match intConstParts s2 with
    | some (k, cs) =>
      if k < 0 then
        (if op = .opPlus then .opMinus else .opPlus, s1,
          .const .opIntConst (.intVal (wrap32 (-k))) cs)
      else (op, s1, s2)
    | none => (op, s1, s2)
  else (op, s1, s2)

/-- The guard of the `exp and true` / `exp or true` rules
(exp.cpp:2697-2710): an integer constant other than 0, or the `opTrue`
terminal. -/
def andOrTrueGuard (s2 : Exp) : Bool :=
  (match intConstVal s2 with | some k => k != 0 | none => false) || isTrueE s2

/-- Rules exp.cpp:2620-2727: identity and absorbing elements, `x/1`, `%1`,
`(x*y)/y`, `(x*y)%y`, `& -1`, `and true`, `or true`, and the
shift-to-multiplication/division conversions for shift amounts in
`[0,32)`. -/
def binD2 (op : Oper) (s1 s2 : Exp) : Option (Exp × Bool) :=
  if (op = .opPlus ∨ op = .opMinus ∨ op = .opBitOr) ∧ intConstVal s2 = some 0 then
    some (s1, true)
  else if op = .opOr ∧ isFalseE s2 then some (s1, true)
  else if (op = .opMult ∨ op = .opMults ∨ op = .opBitAnd) ∧
      intConstVal s2 = some 0 then
    some (mkInt 0, true)
  else if op = .opAnd ∧ isFalseE s2 then some (.terminal .opFalse, true)
  else if (op = .opMult ∨ op = .opMults) ∧ intConstVal s2 = some 1 then
    some (s1, true)
  else
    match s1 with
    | .binary m x y =>
      if (op = .opDiv ∨ op = .opDivs) ∧ (m = .opMult ∨ m = .opMults) ∧
          eqE s2 y then
        some (x, true)
      else if (op = .opMod ∨ op = .opMods) ∧ (m = .opMult ∨ m = .opMults) ∧
          eqE s2 y then
        some (mkInt 0, true)
      else binD2b op (.binary m x y) s2
    | _ => binD2b op s1 s2
where
  binD2b (op : Oper) (s1 s2 : Exp) : Option (Exp × Bool) :=
    if (op = .opDiv ∨ op = .opDivs) ∧ intConstVal s2 = some 1 then
      some (s1, true)
    else if (op = .opMod ∨ op = .opMods) ∧ intConstVal s2 = some 1 then
      some (mkInt 0, true)
    else if op = .opBitAnd ∧ intConstVal s2 = some (-1) then some (s1, true)
    else if op = .opAnd ∧ andOrTrueGuard s2 then some (s1, true)
    else if op = .opOr ∧ andOrTrueGuard s2 then some (.terminal .opTrue, true)
    else
      match intConstParts s2 with
      | some (k, cs) =>
        if op = .opShiftL ∧ 0 ≤ k ∧ k < 32 then
          some (.binary .opMult s1 (.const .opIntConst (.intVal (shl32 1 k.toNat)) cs), true)
        else if op = .opShiftR ∧ 0 ≤ k ∧ k < 32 then
          some (.binary .opDiv s1 (.const .opIntConst (.intVal (shl32 1 k.toNat)) cs), true)
        else none
      | none => none

end Exp

namespace Exp

/-- Rules exp.cpp:2756-2844: comparison normalisations against the integer
constants 0 and 1, `(0 - x) != 0 → x != 0`, `(x > y) == 0 → x <= y` (signed
and unsigned), and the absorption `(x <= y) || (x == y) → x <= y` when the
two comparisons share their operands in either order. -/
def binD3 (op : Oper) (s1 s2 : Exp) : Option (Exp × Bool) :=
  match s1, intConstVal s2 with
  | .binary .opEquals x y, some 1 =>
    if op = .opEquals then some (.binary .opEquals x y, true)
    else if op = .opNotEqual then some (.binary .opNotEqual x y, true)
    else binD3b op s1 s2
  | .binary .opEquals x y, some 0 =>
    if op = .opEquals then some (.binary .opNotEqual x y, true)
    else if op = .opNotEqual then some (.binary .opEquals x y, true)
    else binD3b op s1 s2
  | .binary .opPlus x a2, some 0 =>
    if op = .opEquals then
      match intConstParts a2 with
      | some (n, cs) =>
        if n < 0 then
          some (.binary .opEquals x (.const .opIntConst (.intVal (wrap32 (-n))) cs), true)
        else binD3b op s1 s2
      | none => binD3b op s1 s2
    else binD3b op s1 s2
  | .binary .opMinus z x, some 0 =>
    if op = .opNotEqual ∧ intConstVal z = some 0 then
      some (.binary .opNotEqual (cloneE x) (cloneE s2), true)
    else binD3b op s1 s2
  | .binary .opGtr x y, some 0 =>
    if op = .opEquals then some (.binary .opLessEq x y, true)
    else binD3b op s1 s2
  | .binary .opGtrUns x y, some 0 =>
    if op = .opEquals then some (.binary .opLessEqUns x y, true)
    else binD3b op s1 s2
  | _, _ => binD3b op s1 s2
where
  binD3b (op : Oper) (s1 s2 : Exp) : Option (Exp × Bool) :=
    match s1, s2 with
    | .binary m1 a1 a2, .binary .opEquals b1 b2 =>
      if op = .opOr ∧
          (m1 = .opGtrEq ∨ m1 = .opLessEq ∨ m1 = .opGtrEqUns ∨
            m1 = .opLessEqUns) ∧
          ((eqE a1 b1 ∧ eqE a2 b2) ∨ (eqE a1 b2 ∧ eqE a2 b1)) then
        some (.binary m1 a1 a2, true)
      else none
    | _, _ => none

/-- Rules exp.cpp:2853-3080 (those after the `and`/`or` early return):
`x & x`, `a + a*n`, `a*n*m`, the `opLNot` comparison flips, the
multiplication factorings `(x*n) ± n → (x±1)*n` and
`(x + y*n) ± n → x + (y±1)*n`, the divide/modulo distribution over
`(x*a) + (y*b)`, the `0 - (0 <u x) & y → y` rule and the `opSize`
elimination.  (The compound-type rewrite exp.cpp:2911-2931, whose guard
needs the declared type of a definition, never fires in the model — the
modelled definition reference carries no type — and is omitted; the float
rule exp.cpp:2970-2974 is outside the modelled fragment.) -/
def binF (op : Oper) (s1 s2 : Exp) : Option (Exp × Bool) :=
  if op = .opBitAnd ∧ eqE s1 s2 then some (s1, true)
  else
    match s2 with
    | .binary .opMult y k2e =>
      if op = .opPlus ∧ eqE s1 y then
        match intConstParts k2e with
        | some (n, cs) =>
          some (.binary .opMult y (.const .opIntConst (.intVal (wrap32 (n + 1))) cs), true)
        | none => binF2 op s1 s2
      else binF2 op s1 s2
    | _ => binF2 op s1 s2
where
  binF2 (op : Oper) (s1 s2 : Exp) : Option (Exp × Bool) :=
    match s1, intConstVal s2 with
    | .binary .opMult x k1e, some m =>
      if op = .opMult then
        match intConstParts k1e with
        | some (n, cs) =>
          some (.binary .opMult x (.const .opIntConst (.intVal (wrap32 (n * m))) cs), true)
        | none => binF3 op s1 s2
      else binF3 op s1 s2
    | _, _ => binF3 op s1 s2
  binF3 (op : Oper) (s1 s2 : Exp) : Option (Exp × Bool) :=
    if op = .opLNot ∧ s1.getOper = .opEquals then
      some (setOperE s1 .opNotEqual, true)
    else if op = .opLNot ∧ s1.getOper = .opNotEqual then
      some (setOperE s1 .opEquals, true)
    else binF4 op s1 s2
  binF4 (op : Oper) (s1 s2 : Exp) : Option (Exp × Bool) :=
    match s1 with
    | .binary m x k1e =>
      if (op = .opPlus ∨ op = .opMinus) ∧ (m = .opMults ∨ m = .opMult) then
        match intConstVal s2, intConstVal k1e with
        | some n1, some n2 =>
          if n1 = n2 then
            some (.binary m (.binary op (cloneE x) (mkInt 1)) (mkInt n1), true)
          else binF5 op s1 s2
        | _, _ => binF5 op s1 s2
      else binF5 op s1 s2
    | _ => binF5 op s1 s2
  binF5 (op : Oper) (s1 s2 : Exp) : Option (Exp × Bool) :=
    match s1 with
    | .binary .opPlus x (.binary m2 y k2e) =>
      if (op = .opPlus ∨ op = .opMinus) ∧ (m2 = .opMults ∨ m2 = .opMult) then
        match intConstVal s2, intConstVal k2e with
        | some n1, some n2 =>
          if n1 = n2 then
            some (.binary .opPlus x
              (.binary m2 (.binary op (cloneE y) (mkInt 1)) (mkInt n1)), true)
          else binF6 op s1 s2
        | _, _ => binF6 op s1 s2
      else binF6 op s1 s2
    | _ => binF6 op s1 s2
  binF6 (op : Oper) (s1 s2 : Exp) : Option (Exp × Bool) :=
    match s1, intConstVal s2 with
    | .binary .opPlus (.binary .opMult x ae) (.binary .opMult y be), some c =>
      match intConstVal ae, intConstVal be with
      | some a, some bb =>
        if op = .opDiv ∧ Int.tmod a c = 0 ∧ Int.tmod bb c = 0 then
          some (.binary .opPlus (.binary .opMult x (mkInt (Int.tdiv a c)))
            (.binary .opMult y (mkInt (Int.tdiv bb c))), true)
        else if op = .opMod then
          if Int.tmod a c = 0 ∧ Int.tmod bb c = 0 then some (mkInt 0, true)
          else if Int.tmod a c = 0 then
            some (.binary .opMod (cloneE (.binary .opMult y be)) (mkInt c), true)
          else if Int.tmod bb c = 0 then
            some (.binary .opMod (cloneE (.binary .opMult x ae)) (mkInt c), true)
          else binF7 op s1 s2
        else binF7 op s1 s2
      | _, _ => binF7 op s1 s2
    | _, _ => binF7 op s1 s2
  binF7 (op : Oper) (s1 s2 : Exp) : Option (Exp × Bool) :=
    match s1 with
    | .binary .opMinus z r =>
      if op = .opBitAnd ∧ intConstVal z = some 0 ∧ r.getOper = .opLessUns ∧
          (match r.sub1 with
           | some l => intConstVal l == some 0
           | none => false) = true then
        some (s2, true)
      else binF8 op s1 s2
    | _ => binF8 op s1 s2
  binF8 (op : Oper) (_s1 s2 : Exp) : Option (Exp × Bool) :=
    if op = .opSize ∧ isLocation s2 then some (s2, true) else none

end Exp

namespace Exp

/-- The `opNot`/`opLNot`-over-comparison pushdown table of
`Unary::polySimplify` (exp.cpp:2271-2326): the negated comparison
operator. -/
def negCmp : Oper → Option Oper
  | .opEquals => some .opNotEqual
  | .opNotEqual => some .opEquals
  | .opLess => some .opGtrEq
  | .opLessEq => some .opGtr
  | .opGtr => some .opLessEq
  | .opGtrEq => some .opLess
  | .opLessUns => some .opGtrEqUns
  | .opLessEqUns => some .opGtrUns
  | .opGtrUns => some .opLessEqUns
  | .opGtrEqUns => some .opLessUns
  | _ => none

/-- The node-level rules of `Unary::polySimplify` (exp.cpp:2267-2385),
applied after the child has been simplified (`c` is the simplified child,
`b` the accumulated modification flag):
* `not`/`lnot` over a comparison flips the comparison;
* `opNeg`/`opNot`/`opLNot`/`opSize` of an integer constant folds in place
  (`setInt` keeps the conscript; `opSize` keeps the value);
* a doubled `opNeg`/`opNot`/`opLNot`/`opSize` cancels;
* `addr-of(mem-of(x)) → x`;
* a `opMemOf`/`opRegOf` node runs one more `polySimplify` pass over its
  child (exp.cpp:2374), via the `again` callback. -/
def unStep (again : Exp → Bool → Exp × Bool) (op : Oper) (c : Exp) (b : Bool) :
    Exp × Bool :=
  if op = .opNot ∨ op = .opLNot then
    match negCmp c.getOper with
    | some newOp => (setOperE c newOp, true)
    | none => unSwitch again op c b
  else unSwitch again op c b
where
  unSwitch (again : Exp → Bool → Exp × Bool) (op : Oper) (c : Exp) (b : Bool) :
      Exp × Bool :=
    if op = .opNeg ∨ op = .opNot ∨ op = .opLNot ∨ op = .opSize then
      match intConstParts c with
      | some (k, cs) =>
        let k' :=
          if op = .opNeg then wrap32 (-k)
          else if op = .opNot then bnot32 k
          else if op = .opLNot then (if k = 0 then 1 else 0)
          else k
        (.const .opIntConst (.intVal k') cs, true)
      | none =>
        if op = c.getOper then
          match c.sub1 with
          | some cc => (cc, true)
          | none => (.unary op c, b)
        else (.unary op c, b)
    else if op = .opAddrOf then
      if c.getOper = .opMemOf then
        match c.sub1 with
        | some cc => (cc, true)
        | none => (.unary op c, b)
      else (.unary op c, b)
    else if op = .opMemOf ∨ op = .opRegOf then
      let r := again c b
      (.unary op r.1, r.2)
    else (.unary op c, b)

/-- `Location::polySimplify` (exp.cpp:3817-3835): the override first runs
the inherited `Unary::polySimplify` (here: the already-computed `unStep`
result `u`), then collapses a result of the shape `m[a[x]]` to `x`, setting
the modification flag.  (The source's second branch, for `m[a[loc.x]]`, is
dead code: the first branch already returns for every `m[a[...]]`.)  This
runs only for nodes the program builds through `Location::get` — those
whose tag is one of the `Location` operators tested by `isLocation`. -/
def locStep (u : Exp × Bool) : Exp × Bool :=
  match u.1 with
  | .unary .opMemOf (.unary .opAddrOf x) => (x, true)
  | _ => u

/-- The node-level rules of `Ternary::polySimplify` (exp.cpp:3083-3198)
within the modelled fragment: the `?:` rules against the constants 0 and 1,
`sgn-ex`/`zfill` of an integer constant, and the 32-to-16/8-bit truncations.
(The `opFsize`/`opItof` rules and the program-consulting float-constant
lookup are outside the fragment — float payloads are not modelled.) -/
def ternStep (op : Oper) (a b2 c : Exp) (b : Bool) : Exp × Bool :=
  if op = .opTern ∧ intConstVal b2 = some 1 ∧ intConstVal c = some 0 then
    (a, true)
  else if op = .opTern ∧ intConstVal a = some 1 then (b2, true)
  else if op = .opTern ∧ intConstVal a = some 0 then (c, true)
  else if (op = .opSgnEx ∨ op = .opZfill) ∧ c.getOper = .opIntConst then
    (c, true)
  else
    match intConstVal a, intConstVal b2, intConstVal c with
    | some 32, some tsz, some k =>
      if op = .opTruncu ∧ c.getOper = .opIntConst then
        if tsz = 16 then (mkInt (ofU32 (Nat.land (toU32 k) 65535)), true)
        else if tsz = 8 then (mkInt (ofU32 (Nat.land (toU32 k) 255)), true)
        else ternTruncs op a b2 c b
      else ternTruncs op a b2 c b
    | _, _, _ => ternTruncs op a b2 c b
where
  ternTruncs (op : Oper) (a b2 c : Exp) (b : Bool) : Exp × Bool :=
    match intConstVal a, intConstVal b2, intConstVal c with
    | some 32, some tsz, some k =>
      if op = .opTruncs ∧ c.getOper = .opIntConst then
        if tsz = 16 then (mkInt (land32 k 65535), true)
        else if tsz = 8 then (mkInt (land32 k 255), true)
        else (.ternary op a b2 c, b)
      else (.ternary op a b2 c, b)
    | _, _, _ => (.ternary op a b2 c, b)

/-- The node-level rule sequence of `Binary::polySimplify`
(exp.cpp:2422-3081), applied after both children have been simplified:
folding and self-operations (`binA`), the uncounted commutations
(`binCommute`), the constant-association rules (`binD1`), the uncounted
`a + -K` flip (`binFlip`), the identity/absorbing/shift rules (`binD2`), the
comparison normalisations (`binD3`), the `and`/`or` early return that
re-simplifies both children (exp.cpp:2847-2851, via `rec`), and the trailing
rules (`binF`). -/
def binStep (rec : Exp → Bool → Exp × Bool) (op : Oper) (s1 s2 : Exp)
    (b : Bool) : Exp × Bool :=
  match binA op s1 s2 with
  | some r => r
  | none =>
    let p := binCommute op s1 s2
    match binD1 op p.1 p.2 with
    | some r => r
    | none =>
      let q := binFlip op p.1 p.2
      match binD2 q.1 q.2.1 q.2.2 with
      | some r => r
      | none =>
        match binD3 q.1 q.2.1 q.2.2 with
        | some r => r
        | none =>
          if q.1 = .opOr ∨ q.1 = .opAnd then
            let r1 := rec q.2.1 b
            let r2 := rec q.2.2 r1.2
            (.binary q.1 r1.1 r2.1, r2.2)
          else
            match binF q.1 q.2.1 q.2.2 with
            | some r => r
            | none => (.binary q.1 q.2.1 q.2.2, b)

/-- One `polySimplify` pass over a node, parameterised by the recursion
callback `rec drv x bb` (with `drv = false` a nested `polySimplify` pass,
with `drv = true` a nested full `simplify` driver — used only by the
`TypedExp` rule, exp.cpp:3210).  The `Bool` argument and result thread the
by-reference `bMod` flag.

* `Const`/`Terminal`: the base `Exp::polySimplify` — identity;
* `Unary`: child pass, then `unStep`; on a `Location`-tagged node the
  `m[a[x]] → x` collapse of `Location::polySimplify` follows (`locStep`);
* `Binary`: both children, then `binStep`;
* `Ternary`: three children, then `ternStep`;
* `TypedExp` (exp.cpp:3200-3212): drops the wrapper over a `opRegOf`
  (counted), otherwise runs the full `simplify` driver on the child without
  touching the flag;
* `RefExp` (exp.cpp:3214-3245): child pass; if the flag is set (by the child
  or by anything earlier in the pass — the source tests the accumulated
  by-reference flag) its own rules are skipped; otherwise `DF{null}`
  collapses to 0.  (The Pentium `r0`/`r24` aliasing rule needs the
  assignment payload of the definition, which the modelled `DefRef` does not
  carry; its guard is modelled as false.) -/
def passBody (rec : Bool → Exp → Bool → Exp × Bool) (e : Exp) (b : Bool) :
    Exp × Bool :=
  match e with
  | .const op v cs => (.const op v cs, b)
  | .terminal op => (.terminal op, b)
  | .unary op c =>
    let r := rec false c b
    let u := unStep (fun x bb => rec false x bb) op r.1 r.2
    if isLocation (.unary op c) then locStep u else u
  | .binary op x y =>
    let r1 := rec false x b
    let r2 := rec false y r1.2
    binStep (fun x bb => rec false x bb) op r1.1 r2.1 r2.2
  | .ternary op x y z =>
    let r1 := rec false x b
    let r2 := rec false y r1.2
    let r3 := rec false z r2.2
    ternStep op r1.1 r2.1 r3.1 r3.2
  | .typedExp t c =>
    if c.getOper = .opRegOf then (c, true)
    else (.typedExp t (rec true c false).1, b)
  | .refExp c d =>
    let r := rec false c b
    if r.2 then (.refExp r.1 d, r.2)
    else if r.1.getOper = .opDF ∧ d = .dnull then (mkInt 0, true)
    else (.refExp r.1 d, false)

/-- The simplification engine: `runF fuel drv e b` runs, for `drv = false`,
one `polySimplify` pass over `e` with incoming flag `b`, and for
`drv = true`, the `Exp::simplify` driver loop (exp.cpp:2238-2248: repeat the
pass, starting each pass with a cleared flag, until a pass leaves the flag
clear).  The function is structural in `fuel`, which decreases on every
nested call; a fuel of 0 returns the argument unchanged, and the wrappers
below supply fuels under which that branch is not reached for the inputs of
any theorem. -/
def runF : Nat → Bool → Exp → Bool → Exp × Bool
  | 0, _, e, b => (e, b)
  | f + 1, false, e, b => passBody (fun drv x bb => runF f drv x bb) e b
  | f + 1, true, e, _ =>
    let r := runF f false e false
    if r.2 then runF f true r.1 false else (r.1, false)

/-- Nodes tagged `opShiftL` or `opShiftR` (the shift-conversion rules
eliminate one each; no rule creates one): first component of the
termination measure. -/
def shiftCount : Exp → Nat
  | .const _ _ _ => 0
  | .terminal _ => 0
  | .unary _ c => shiftCount c
  | .binary op x y =>
    (if op = .opShiftL ∨ op = .opShiftR then 1 else 0) + shiftCount x +
      shiftCount y
  | .ternary _ x y z => shiftCount x + shiftCount y + shiftCount z
  | .typedExp _ c => shiftCount c
  | .refExp c _ => shiftCount c

/-- Sum, over every `+`/`-` binary node, of the size of its subtree: the
component of the termination measure that the factoring rules (which keep
the node count) strictly decrease. -/
def omegaPM : Exp → Nat
  | .const _ _ _ => 0
  | .terminal _ => 0
  | .unary _ c => omegaPM c
  | .binary op x y =>
    (if op = .opPlus ∨ op = .opMinus then 1 + esize x + esize y else 0) +
      omegaPM x + omegaPM y
  | .ternary _ x y z => omegaPM x + omegaPM y + omegaPM z
  | .typedExp _ c => omegaPM c
  | .refExp c _ => omegaPM c

/-- The termination measure of the rewrite system: every counted rule of the
embedded `polySimplify` strictly decreases it, and the uncounted
canonicalisations preserve it (proved below). -/
def mExp (e : Exp) : Nat := shiftCount e + omegaPM e + esize e

/-- A fuel that is large enough for `runF` on `e` (each nesting level of
the pass consumes one unit; each driver iteration one more; the measure
lemma bounds the iterations). -/
def fuelFor (e : Exp) : Nat := (mExp e + 2) * (esize e + 2)

/-- `Exp::simplify` (exp.cpp:2230-2258): run `polySimplify` passes until one
makes no counted change. -/
def simplify (e : Exp) : Exp := (runF (fuelFor e) true e false).1

/-- One `polySimplify` pass with adequate fuel, returning the rewritten
expression and the modification flag — the body of the driver loop. -/
def passOnce (e : Exp) : Exp × Bool := runF (fuelFor e) false e false

end Exp

namespace Exp

/-! ## The integer evaluator (spec side of C2) -/

/-- Modelled from the spec: evaluation of one binary operator over 32-bit
two's-complement values, under the spec's stated conventions (§4.G/§8.5):
the unsigned variants of division and modulus are unsigned; shift amounts
`≥ 32` produce zero for all three shifts; the arithmetic right shift
sign-extends.  Division by zero and negative shift amounts are outside the
stated semantics and evaluate to `none`. -/
def evalBinSpec (op : Oper) (x y : Int) : Option Int :=
  match op with
  | .opPlus => some (wrap32 (x + y))
  | .opMinus => some (wrap32 (x - y))
  | .opMult => some (wrap32 (x * y))
  | .opMults => some (wrap32 (x * y))
  | .opDiv => if toU32 y = 0 then none else some (ofU32 (toU32 x / toU32 y))
  | .opDivs => if y = 0 then none else some (wrap32 (Int.tdiv x y))
  | .opMod => if toU32 y = 0 then none else some (ofU32 (toU32 x % toU32 y))
  | .opMods => if y = 0 then none else some (wrap32 (Int.tmod x y))
  | .opShiftL =>
    if y < 0 then none else if 32 ≤ y then some 0 else some (shl32 x y.toNat)
  | .opShiftR =>
    if y < 0 then none else if 32 ≤ y then some 0 else some (lsr32 x y.toNat)
  | .opShiftRA =>
    if y < 0 then none else if 32 ≤ y then some 0 else some (asr x y.toNat)
  | .opBitOr => some (lor32 x y)
  | .opBitAnd => some (land32 x y)
  | .opBitXor => some (lxor32 x y)
  | .opEquals => some (if x = y then 1 else 0)
  | .opNotEqual => some (if x = y then 0 else 1)
  | .opLess => some (if x < y then 1 else 0)
  | .opGtr => some (if y < x then 1 else 0)
  | .opLessEq => some (if x ≤ y then 1 else 0)
  | .opGtrEq => some (if y ≤ x then 1 else 0)
  | .opLessUns => some (if toU32 x < toU32 y then 1 else 0)
  | .opGtrUns => some (if toU32 y < toU32 x then 1 else 0)
  | .opLessEqUns => some (if toU32 x ≤ toU32 y then 1 else 0)
  | .opGtrEqUns => some (if toU32 y ≤ toU32 x then 1 else 0)
  | _ => none

/-- Modelled from the spec (§8.5): the evaluation of a closed integer
expression — integer constants combined by the supported unary and binary
integer operators — over 32-bit two's-complement arithmetic; `none` on
anything outside that closed fragment. -/
def evalI : Exp → Option Int
  | .const .opIntConst (.intVal k) _ => some k
  | .unary op c =>
    match evalI c with
    | some x =>
      if op = .opNeg then some (wrap32 (-x))
      else if op = .opNot then some (bnot32 x)
      else if op = .opLNot then some (if x = 0 then 1 else 0)
      else none
    | none => none
  | .binary op a b =>
    match evalI a, evalI b with
    | some x, some y => evalBinSpec op x y
    | _, _ => none
  | _ => none

end Exp

/-! ## The signature engine (signature.cpp) -/

/-- `Location::regOf(k)` — `r[k]`. -/
def regOfE (k : Int) : Exp := .unary .opRegOf (Exp.mkInt k)

/-- `Location::memOf(x)` — `m[x]`. -/
def memOfE (x : Exp) : Exp := .unary .opMemOf x

/-- `Exp::isRegOfK` (exp.cpp:1555-1559) combined with the
`access<Const,1>()->getInt()` read the signature code performs on it: the
register index when the expression is `r[K]` with `K` an integer
constant. -/
def regOfKVal : Exp → Option Int
  | .unary .opRegOf c => Exp.intConstVal c
  | _ => none

/-- A parameter of a signature (`class Parameter`, signature.cpp): its
declared type, name, and the location expression.  (The `boundMax` field
plays no role in the modelled queries.) -/
structure Param where
  ty : Ty
  name : String
  exp : Exp
deriving DecidableEq, Repr

/-- A return of a signature (`class Return`). -/
structure Ret where
  ty : Ty
  exp : Exp
deriving DecidableEq, Repr

/-- The mutable state of a `Signature` that the modelled queries read: its
ordered parameter and return lists (signature.cpp:1144-1154 and the
`params`/`returns` members). -/
structure SigState where
  params : List Param
  returns : List Ret
deriving DecidableEq, Repr

/-- `Signature::getParamExp(n)` (signature.cpp:1302-1305): the location
expression of parameter `n`; the `assert(n < params.size())` makes the
out-of-range case undefined, modelled by a dummy value (every use below is
guarded by the caller's range check). -/
def getParamExpS (s : SigState) (n : Int) : Exp :=
  match s.params.get? n.toNat with
  | some p => p.exp
  | none => Exp.mkInt 0

/-- The error raised by the base signature's stack-register query. -/
inductive SigError where
  | stackRegisterNotDefined
deriving DecidableEq, Repr

/-- `Signature::getStackRegister()` (signature.cpp:1681-1685): the base
(not yet promoted) signature always throws
`StackRegisterNotDefinedException`, whatever its state. -/
def getStackRegisterBase (_ : SigState) : Except SigError Int :=
  .error .stackRegisterNotDefined

/-- `CallingConvention::Win32Signature::getArgumentExp(n)`
(signature.cpp:361-369): an explicitly set parameter wins; otherwise the
stack slot `m[esp + (n+1)*4]`, where `n` is first decremented when the
signature carries the stack pointer `r[28]` as an implicit first
parameter. -/
def win32GetArgumentExp (s : SigState) (n : Int) : Exp :=
  if n < (s.params.length : Int) then getParamExpS s n
  else
    let esp := regOfE 28
    let n' :=
      if s.params.length ≠ 0 ∧ Exp.eqE (getParamExpS s 0) esp then n - 1 else n
    memOfE (.binary .opPlus esp (Exp.mkInt ((n' + 1) * 4)))

/-- `CallingConvention::StdC::PentiumSignature::getArgumentExp(n)`
(signature.cpp:567-575): same stack-slot formula as Win32. -/
def pentiumGetArgumentExp (s : SigState) (n : Int) : Exp :=
  if n < (s.params.length : Int) then getParamExpS s n
  else
    let esp := regOfE 28
    let n' :=
      if s.params.length ≠ 0 ∧ Exp.eqE (getParamExpS s 0) esp then n - 1 else n
    memOfE (.binary .opPlus esp (Exp.mkInt ((n' + 1) * 4)))

/-- `CallingConvention::StdC::PentiumSignature::getProven(left)`
(signature.cpp:587-601): `r28 → r28 + 4`; `r27`, `r29`, `r30`, `r31` are
proven to be themselves; anything else has no answer (`nullptr`,
modelled as `none`). -/
def pentiumGetProven (left : Exp) : Option Exp :=
  match regOfKVal left with
  | some r =>
    if r = 28 then some (.binary .opPlus (regOfE 28) (Exp.mkInt 4))
    else if r = 29 ∨ r = 30 ∨ r = 31 ∨ r = 27 then some (regOfE r)
    else none
  | none => none

/-- `CallingConvention::StdC::PentiumSignature::isPreserved(e)`
(signature.cpp:603-622): the callee-save registers — `ebp ebx esi edi` and
their 16/8-bit aliases `bx bp si di bl bh`. -/
def pentiumIsPreserved (e : Exp) : Bool :=
  match regOfKVal e with
  | some r =>
    r = 29 ∨ r = 27 ∨ r = 30 ∨ r = 31 ∨ r = 3 ∨ r = 5 ∨ r = 6 ∨ r = 7 ∨
      r = 11 ∨ r = 15
  | none => false

/-- `CallingConvention::Win32Signature::getProven(left)`
(signature.cpp:397-419): `r28 → r28 + 4 + 4*nparams` (callee pop, not
counting an implicit stack-pointer first parameter), `r27 r29 r30 r31`
proven to be themselves, no answer otherwise. -/
def win32GetProven (s : SigState) (left : Exp) : Option Exp :=
  let nparams0 := s.params.length
  let nparams :=
    if 0 < nparams0 ∧ Exp.eqE (getParamExpS s 0) (regOfE 28) then nparams0 - 1
    else nparams0
  match regOfKVal left with
  | some r =>
    if r = 28 then
      some (.binary .opPlus (regOfE 28) (Exp.mkInt (4 + (nparams : Int) * 4)))
    else if r = 27 ∨ r = 29 ∨ r = 30 ∨ r = 31 then some (regOfE r)
    else none
  | none => none

/-- `CallingConvention::Win32Signature::isPreserved(e)`
(signature.cpp:421-440): same register set as the Pentium convention. -/
def win32IsPreserved (e : Exp) : Bool :=
  match regOfKVal e with
  | some r =>
    r = 29 ∨ r = 27 ∨ r = 30 ∨ r = 31 ∨ r = 3 ∨ r = 5 ∨ r = 6 ∨ r = 7 ∨
      r = 11 ∨ r = 15
  | none => false

namespace Exp

/-! ## Well-formedness and fragments

The spec's invariants (§3): shape matches tag, wildcard tags appear only in
search patterns, conscripts are attached only by type analysis.  `cleanE`
is the set of stored expressions in the modelled fragment: tags consistent
with their node shape, no wildcard tags, and no non-zero conscripts. -/

def constOpOK (op : Oper) : Bool :=
  op = .opIntConst ∨ op = .opStrConst

def termOpOK (op : Oper) : Bool :=
  op = .opTrue ∨ op = .opFalse ∨ op = .opPC ∨ op = .opDF

def unaryOpOK (op : Oper) : Bool :=
  op = .opNeg ∨ op = .opNot ∨ op = .opLNot ∨ op = .opAddrOf ∨
    op = .opMemOf ∨ op = .opRegOf ∨ op = .opGlobal ∨ op = .opLocal ∨
    op = .opParam ∨ op = .opTemp ∨ op = .opInitValueOf

def binOpOK (op : Oper) : Bool :=
  op = .opPlus ∨ op = .opMinus ∨ op = .opMult ∨ op = .opMults ∨
    op = .opDiv ∨ op = .opDivs ∨ op = .opMod ∨ op = .opMods ∨
    op = .opShiftL ∨ op = .opShiftR ∨ op = .opShiftRA ∨ op = .opBitOr ∨
    op = .opBitAnd ∨ op = .opBitXor ∨ op = .opAnd ∨ op = .opOr ∨
    op = .opEquals ∨ op = .opNotEqual ∨ op = .opLess ∨ op = .opGtr ∨
    op = .opLessEq ∨ op = .opGtrEq ∨ op = .opLessUns ∨ op = .opGtrUns ∨
    op = .opLessEqUns ∨ op = .opGtrEqUns ∨ op = .opSize

def ternOpOK (op : Oper) : Bool :=
  op = .opTern ∨ op = .opSgnEx ∨ op = .opZfill ∨ op = .opTruncu ∨
    op = .opTruncs

/-- A stored (non-pattern) expression of the modelled fragment: shapes and
tags agree, payloads match their tag, no wildcard tags anywhere, and every
conscript is zero (spec §3 invariants 1, 4; conscripts are only attached
during type analysis). -/
def cleanE : Exp → Bool
  | .const op v cs =>
    (match op, v with
     | .opIntConst, .intVal _ => true
     | .opStrConst, .strVal _ => true
     | _, _ => false) && (cs == 0)
  | .terminal op => termOpOK op
  | .unary op c => unaryOpOK op && cleanE c
  | .binary op a b => binOpOK op && cleanE a && cleanE b
  | .ternary op a b c => ternOpOK op && cleanE a && cleanE b && cleanE c
  | .typedExp _ c => cleanE c
  | .refExp c _ => cleanE c

/-- The closed integer fragment of C2/C3: integer constants (conscript 0)
combined by `opNeg`/`opNot`/`opLNot` and the binary operators the constant
folder handles (`foldBin` returns a value exactly for those). -/
def intFrag : Exp → Bool
  | .const .opIntConst (.intVal _) cs => cs == 0
  | .unary op c =>
    (op = .opNeg ∨ op = .opNot ∨ op = .opLNot) && intFrag c
  | .binary op a b => (foldBin op 0 0).isSome && intFrag a && intFrag b
  | _ => false

/-- The driver loop unrolled from the outside: `driverIter k e` is the
expression after `k` passes of `polySimplify` (each with adequate fuel);
the driver of `Exp::simplify` stops at the first `k` whose pass reports no
modification. -/
def driverIter : Nat → Exp → Exp
  | 0, e => e
  | k + 1, e => (passOnce (driverIter k e)).1

/-- `a[ global s ]{-}` — the address of a subscripted global (the shape the
third commutation rule of `Binary::polySimplify` moves to the left of a
sum). -/
def agOf (s : String) : Exp :=
  .unary .opAddrOf (.refExp (.unary .opGlobal (.const .opStrConst (.strVal s) 0)) .dnull)

/-- `a[g1{-}] + a[g2{-}]`: each pass of `polySimplify` swaps the two
operands by the uncounted third commutation, so the driver returns a tree
that the next `simplify` call swaps back. -/
def exOscill : Exp := .binary .opPlus (agOf "g1") (agOf "g2")

/-- The failing input of C2: `4 >>A 1` (arithmetic shift right of a
positive constant). -/
def exC2 : Exp := .binary .opShiftRA (mkInt 4) (mkInt 1)

/-- An integer constant with a non-zero conscript (the failing input of
C1): type analysis attaches conscripts to otherwise-identical literals. -/
def conscriptedConst : Exp := .const .opIntConst (.intVal 42) 1

/-- The failing input of C6: an expression containing a conscripted
constant next to the searched-for subterm. -/
def exC6 : Exp := .binary .opPlus conscriptedConst (.terminal .opPC)

end Exp

/-! # Theorems -/

namespace Exp

theorem cloneE_id (e : Exp) : cloneE e = e := by
  induction e with
  | const op v c => rfl
  | terminal op => rfl
  | unary op e ih => simp [cloneE, ih]
  | binary op a b iha ihb => simp [cloneE, iha, ihb]
  | ternary op a b c iha ihb ihc => simp [cloneE, iha, ihb, ihc]
  | typedExp t e ih => simp [cloneE, ih]
  | refExp e d ih => simp [cloneE, ih]

theorem partition_sum (env : Exp → Int) :
    ∀ (e : Exp) (negate : Bool),
      sumBag env (partitionTerms e negate).1
        - sumBag env (partitionTerms e negate).2.1
        + sumInts (partitionTerms e negate).2.2
      = (if negate then -(evalPM env e) else evalPM env e) := by
  intro e
  induction e with
  | binary op a b iha ihb =>
    intro negate
    by_cases hp : op = Oper.opPlus
    · subst hp
      have h1 := iha negate
      have h2 := ihb negate
      simp only [partitionTerms, evalPM, if_pos rfl, sumBag, sumInts,
        List.map_append, List.sum_append] at *
      cases negate <;> simp at * <;> omega
    · by_cases hm : op = Oper.opMinus
      · subst hm
        have h1 := iha negate
        have h2 := ihb (!negate)
        simp only [partitionTerms, evalPM, hp, if_neg, if_pos rfl, sumBag,
          sumInts, List.map_append, List.sum_append, if_false] at *
        cases negate <;> simp at * <;> omega
      · simp only [partitionTerms, evalPM, hp, hm, if_false, ptDefault,
          sumBag, sumInts]
        cases negate <;> simp [evalPM, hp, hm]
  | typedExp t c ih =>
    intro negate
    simpa only [partitionTerms, evalPM, getOper, if_pos rfl] using ih negate
  | const op v cs =>
    intro negate
    cases op <;> cases v <;> cases negate <;>
      simp [partitionTerms, ptDefault, sumBag, sumInts, evalPM, getOper]
  | terminal op =>
    intro negate
    simp only [partitionTerms, ptDefault, sumBag, sumInts]
    cases negate <;> simp [evalPM]
  | unary op c ih =>
    intro negate
    simp only [partitionTerms, ptDefault, sumBag, sumInts]
    cases negate <;> simp [evalPM]
  | ternary op a b c iha ihb ihc =>
    intro negate
    simp only [partitionTerms, ptDefault, sumBag, sumInts]
    cases negate <;> simp [evalPM]
  | refExp c d ih =>
    intro negate
    simp only [partitionTerms, ptDefault, sumBag, sumInts]
    cases negate <;> simp [evalPM]

/-- C1.  The claim states that strict equality is an equivalence on the
non-wildcard expressions, and in particular that a `Const` is equal to
itself (reflexivity) even when it carries a non-zero conscript, and that
two `Const` nodes with the same tag, value and non-zero conscript compare
equal.  The code does not satisfy this: the conscript test of
`Const::operator==` (exp.cpp:320) is
`(conscript && conscript != o.conscript) || o.conscript`, whose second
disjunct rejects *any* right operand with a non-zero conscript — including
an identical one — so a conscripted constant is never equal to anything,
itself included.  This theorem evaluates the embedded equality at the
failing input `Const(opIntConst, 42, conscript 1)`: reflexivity fails (and
the first disjunct of the source's test is dead code, showing the intended
test was `conscript != o.conscript`); the zero-conscript constant, by
contrast, is self-equal. -/
theorem C1_conscripted_const_not_self_equal :
    eqE conscriptedConst conscriptedConst = false ∧
      eqE (.const .opIntConst (.intVal 42) 0)
        (.const .opIntConst (.intVal 42) 0) = true ∧
      eqE (.const .opIntConst (.intVal 42) 0) conscriptedConst = false := by
  decide

/-- C2.  The claim states that `simplify` preserves 32-bit two's-complement
evaluation on closed integer expressions, with arithmetic right shift
sign-extending and all shift amounts `≥ 32` producing zero.  The constant
folder violates this: its `opShiftRA` case (exp.cpp:2472-2473) computes
`(k1 >> k2) | (((1 << k2) - 1) << (32 - k2))`, ORing the high mask in
unconditionally, so a *positive* value gets its high bits set; its
`opShiftR` case (exp.cpp:2469-2470) uses the signed (arithmetic) `>>` with
no `≥ 32` guard instead of a logical shift.  At the failing input
`4 >>A 1` the evaluator gives 2, but `simplify` folds the expression to
`0x80000002 = -2147483646`; the logical-shift case diverges at `-2 >> 1`
likewise. -/
theorem C2_shiftRA_fold_diverges_from_evaluation :
    simplify exC2 = mkInt (-2147483646) ∧ evalI exC2 = some 2 ∧
      evalI (simplify exC2) ≠ evalI exC2 ∧
      simplify (.binary .opShiftR (mkInt (-2)) (mkInt 1)) = mkInt (-1) ∧
      evalI (.binary .opShiftR (mkInt (-2)) (mkInt 1)) = some 2147483647 := by
  decide

/-- C5.  Partition correctness: for every expression (the `+`/`-` trees of
the claim, and degenerately everything else, which lands whole in a bag)
and every valuation of the non-arithmetic subterms, the sum of the positive
bag minus the sum of the negative bag plus the sum of the integer bag of
`partitionTerms` agrees with the integer evaluation of the expression
modulo `2^32` (32-bit two's-complement evaluation). -/
theorem C5_partition_correctness (env : Exp → Int) (e : Exp) :
    wrap32 (sumBag env (partitionTerms e false).1
        - sumBag env (partitionTerms e false).2.1
        + sumInts (partitionTerms e false).2.2)
      = wrap32 (evalPM env e) := by
  rw [partition_sum env e false]
  simp

/-- C10.  The search blind spot: at a unary `opInitValueOf` node, the
search (`doSearch`, hence `search`, `searchAll`) reports a hit exactly when
the pattern matches the node itself — never anything inside the child,
because `Unary::doSearchChildren` (exp.cpp:1908-1911) refuses to descend —
and `searchReplaceAll` consequently either replaces the whole node or
leaves it (child included) untouched. -/
theorem C10_init_value_of_search_blind_spot (p c q : Exp) :
    searchFound p (.unary .opInitValueOf c)
        = eqE p (.unary .opInitValueOf c) ∧
      doSearchL p (.unary .opInitValueOf c)
        = (if eqE p (.unary .opInitValueOf c) then
            [Exp.unary .opInitValueOf c] else []) ∧
      replaceAll (.unary .opInitValueOf c) p q
        = (if eqE p (.unary .opInitValueOf c) then cloneE q
           else .unary .opInitValueOf c) := by
  by_cases h : eqE p (.unary .opInitValueOf c) = true <;>
    simp [searchFound, doSearchL, replaceAll, h]

end Exp

/-- C9.  The base (not yet promoted) `Signature::getStackRegister`
(signature.cpp:1681-1685) raises the stack-register-not-defined signal in
every state of the parameter and return lists; it never returns a register
index. -/
theorem C9_base_signature_stack_register_raises (s : SigState) :
    getStackRegisterBase s = Except.error SigError.stackRegisterNotDefined :=
  rfl

/-- C7.  The claim states that every register listed as preserved has the
identity proven fact.  For the Pentium stdc and Win32 conventions this
fails on the 16/8-bit alias registers: `isPreserved` accepts
`bx bp si di bl bh` (r3, r5, r6, r7, r11, r15) but `getProven` has switch
cases only for r27-r31 (and r28), returning the no-answer `nullptr` for the
aliases — the source itself notes "there are other things that must be
preserved here" (signature.cpp:415).  Failing input: `r[3]` (bx). -/
theorem C7_preserved_r3_has_no_proven :
    pentiumIsPreserved (regOfE 3) = true ∧
      pentiumGetProven (regOfE 3) = none ∧
      win32IsPreserved (regOfE 3) = true ∧
      (∀ s : SigState, win32GetProven s (regOfE 3) = none) ∧
      pentiumGetProven (regOfE 27) = some (regOfE 27) ∧
      pentiumIsPreserved (regOfE 27) = true := by
  refine ⟨by decide, by decide, by decide, fun s => rfl, by decide, by decide⟩

/-- C8 (counterexample).  The claim gives the Win32 stdc stack slot as
`m[r28 + (4 + 4*(n+1))]`; the code (signature.cpp:361-369) computes
`m[r28 + 4*(n+1)]`.  With no parameters set, `getArgumentExp(0)` is
`m[r28 + 4]`, not the claimed `m[r28 + 8]` (neither structurally nor under
the wildcard-aware strict equality). -/
theorem C8_win32_arg0_differs_from_claimed_formula :
    win32GetArgumentExp ⟨[], []⟩ 0
        = memOfE (.binary .opPlus (regOfE 28) (Exp.mkInt 4)) ∧
      win32GetArgumentExp ⟨[], []⟩ 0
        ≠ memOfE (.binary .opPlus (regOfE 28) (Exp.mkInt (4 + 4 * (0 + 1)))) ∧
      Exp.eqE (win32GetArgumentExp ⟨[], []⟩ 0)
        (memOfE (.binary .opPlus (regOfE 28) (Exp.mkInt 8))) = false := by
  decide

/-- C8 (amended).  With no explicit parameters set, the Win32 stdc
`getArgumentExp(n)` is, for every `n ≥ 0`, the stack slot
`m[r28 + (n+1)*4]` — the first location being `m[r28 + 4]` — and it is a
function of `n` and the parameter list by construction. -/
theorem C8_win32_arg_slot_formula (n : Int) (hn : 0 ≤ n) :
    win32GetArgumentExp ⟨[], []⟩ n
      = memOfE (.binary .opPlus (regOfE 28) (Exp.mkInt ((n + 1) * 4))) := by
  unfold win32GetArgumentExp
  have : ¬ (n < ((SigState.mk [] []).params.length : Int)) := by
    simp only [List.length_nil, Nat.cast_zero]
    omega
  rw [if_neg this]
  simp

theorem C8_win32_arg_slot_formula_witness :
    0 ≤ (0 : Int) ∧
      win32GetArgumentExp ⟨[], []⟩ 0
        = memOfE (.binary .opPlus (regOfE 28) (Exp.mkInt ((0 + 1) * 4))) :=
  ⟨by decide, C8_win32_arg_slot_formula 0 (by decide)⟩

namespace Exp

theorem defEq_refl (d : DefRef) : defEq d d = true := by
  cases d <;> simp [defEq, isImplicitDef]

/-- The clean tag classes are pairwise disjoint and contain no wildcard
tag (decided over the finite operator enumeration). -/
theorem opClassFacts (op : Oper) :
    (¬ (constOpOK op ∧ termOpOK op)) ∧ (¬ (constOpOK op ∧ unaryOpOK op)) ∧
      (¬ (constOpOK op ∧ binOpOK op)) ∧ (¬ (constOpOK op ∧ ternOpOK op)) ∧
      (¬ (termOpOK op ∧ unaryOpOK op)) ∧ (¬ (termOpOK op ∧ binOpOK op)) ∧
      (¬ (termOpOK op ∧ ternOpOK op)) ∧ (¬ (unaryOpOK op ∧ binOpOK op)) ∧
      (¬ (unaryOpOK op ∧ ternOpOK op)) ∧ (¬ (binOpOK op ∧ ternOpOK op)) ∧
      ((constOpOK op ∨ termOpOK op ∨ unaryOpOK op ∨ binOpOK op ∨
          ternOpOK op) →
        (op ≠ .opWild ∧ op ≠ .opWildIntConst ∧ op ≠ .opWildStrConst ∧
          op ≠ .opWildMemOf ∧ op ≠ .opWildRegOf ∧ op ≠ .opWildAddrOf ∧
          op ≠ .opTypedExp ∧ op ≠ .opSubscript)) := by
  cases op <;> decide

/-- A clean node's tag is never a wildcard tag. -/
theorem clean_not_wild (x : Exp) (hx : cleanE x = true) :
    getOper x ≠ .opWild ∧ getOper x ≠ .opWildIntConst ∧
      getOper x ≠ .opWildStrConst ∧ getOper x ≠ .opWildMemOf ∧
      getOper x ≠ .opWildRegOf ∧ getOper x ≠ .opWildAddrOf := by
  cases x with
  | const op v cs =>
    cases op <;> cases v <;> simp_all [cleanE, getOper]
  | terminal op =>
    simp only [cleanE] at hx
    have := (opClassFacts op).2.2.2.2.2.2.2.2.2.2 (Or.inr (Or.inl hx))
    exact ⟨this.1, this.2.1, this.2.2.1, this.2.2.2.1, this.2.2.2.2.1,
      this.2.2.2.2.2.1⟩
  | unary op c =>
    simp only [cleanE, Bool.and_eq_true] at hx
    have := (opClassFacts op).2.2.2.2.2.2.2.2.2.2 (Or.inr (Or.inr (Or.inl hx.1)))
    exact ⟨this.1, this.2.1, this.2.2.1, this.2.2.2.1, this.2.2.2.2.1,
      this.2.2.2.2.2.1⟩
  | binary op a b =>
    simp only [cleanE, Bool.and_eq_true] at hx
    have := (opClassFacts op).2.2.2.2.2.2.2.2.2.2
      (Or.inr (Or.inr (Or.inr (Or.inl hx.1.1))))
    exact ⟨this.1, this.2.1, this.2.2.1, this.2.2.2.1, this.2.2.2.2.1,
      this.2.2.2.2.2.1⟩
  | ternary op a b c =>
    simp only [cleanE, Bool.and_eq_true] at hx
    have := (opClassFacts op).2.2.2.2.2.2.2.2.2.2
      (Or.inr (Or.inr (Or.inr (Or.inr hx.1.1.1))))
    exact ⟨this.1, this.2.1, this.2.2.1, this.2.2.2.1, this.2.2.2.2.1,
      this.2.2.2.2.2.1⟩
  | typedExp t c => simp [getOper]
  | refExp c d => simp [getOper]

/-- Strict equality is reflexive on clean expressions (the zero-conscript,
wildcard-free stored expressions): the spec's reflexivity, which on the
full expression type fails (see C1). -/
theorem eqE_refl (e : Exp) (he : cleanE e = true) : eqE e e = true := by
  induction e with
  | const op v cs =>
    cases op <;> cases v <;> simp_all [cleanE, eqE, getOper]
  | terminal op =>
    simp only [cleanE] at he
    have hw := (opClassFacts op).2.2.2.2.2.2.2.2.2.2 (Or.inr (Or.inl he))
    simp [eqE, getOper, hw.1, hw.2.1, hw.2.2.1, hw.2.2.2.1, hw.2.2.2.2.1,
      hw.2.2.2.2.2.1]
  | unary op c ih =>
    simp only [cleanE, Bool.and_eq_true] at he
    have hw := (opClassFacts op).2.2.2.2.2.2.2.2.2.2
      (Or.inr (Or.inr (Or.inl he.1)))
    simp [eqE, getOper, sub1, hw.1, hw.2.1, hw.2.2.1, hw.2.2.2.1,
      hw.2.2.2.2.1, hw.2.2.2.2.2.1, ih he.2]
  | binary op a b iha ihb =>
    simp only [cleanE, Bool.and_eq_true] at he
    have hw := (opClassFacts op).2.2.2.2.2.2.2.2.2.2
      (Or.inr (Or.inr (Or.inr (Or.inl he.1.1))))
    simp [eqE, getOper, hw.1, iha he.1.2, ihb he.2]
  | ternary op a b c iha ihb ihc =>
    simp only [cleanE, Bool.and_eq_true] at he
    have hw := (opClassFacts op).2.2.2.2.2.2.2.2.2.2
      (Or.inr (Or.inr (Or.inr (Or.inr he.1.1.1))))
    simp [eqE, getOper, hw.1, iha he.1.1.2, ihb he.1.2, ihc he.2]
  | typedExp t c ih =>
    simp only [cleanE] at he
    simp [eqE, getOper, ih he]
  | refExp c d ih =>
    simp only [cleanE] at he
    simp [eqE, getOper, ih he, defEq_refl]

end Exp

namespace Exp

theorem eqE_size (q : Exp) (hq : cleanE q = true) :
    ∀ x, cleanE x = true → eqE q x = true → esize q = esize x := by
  induction q with
  | const op v cs =>
    intro x hx h
    have hw := clean_not_wild x hx
    cases x with
    | const xop xv xcs => rfl
    | terminal xop =>
      have w1 : xop ≠ Oper.opWild := hw.1
      have w2 : xop ≠ Oper.opWildIntConst := hw.2.1
      have w3 : xop ≠ Oper.opWildStrConst := hw.2.2.1
      simp [eqE, getOper, w1, w2, w3] at h
    | unary xop xc =>
      have w1 : xop ≠ Oper.opWild := hw.1
      have w2 : xop ≠ Oper.opWildIntConst := hw.2.1
      have w3 : xop ≠ Oper.opWildStrConst := hw.2.2.1
      simp [eqE, getOper, w1, w2, w3] at h
    | binary xop xa xb =>
      have w1 : xop ≠ Oper.opWild := hw.1
      have w2 : xop ≠ Oper.opWildIntConst := hw.2.1
      have w3 : xop ≠ Oper.opWildStrConst := hw.2.2.1
      simp [eqE, getOper, w1, w2, w3] at h
    | ternary xop xa xb xc =>
      have w1 : xop ≠ Oper.opWild := hw.1
      have w2 : xop ≠ Oper.opWildIntConst := hw.2.1
      have w3 : xop ≠ Oper.opWildStrConst := hw.2.2.1
      simp [eqE, getOper, w1, w2, w3] at h
    | typedExp xt xc => simp [eqE, getOper] at h
    | refExp xc xd => simp [eqE, getOper] at h
  | terminal op =>
    intro x hx h
    simp only [cleanE] at hq
    have hwq := (opClassFacts op).2.2.2.2.2.2.2.2.2.2 (Or.inr (Or.inl hq))
    have hw := clean_not_wild x hx
    simp only [eqE, hwq.1, hwq.2.1, hwq.2.2.1, hwq.2.2.2.1, hwq.2.2.2.2.1,
      hwq.2.2.2.2.2.1, if_false, decide_eq_true_eq] at h
    rcases h with h | h | h
    · exact h.elim
    · exact absurd h hw.1
    · cases x with
      | const xop xv xcs =>
        cases xop <;> cases xv <;> simp_all [cleanE, getOper, termOpOK]
      | terminal xop => rfl
      | unary xop xc =>
        simp only [cleanE, Bool.and_eq_true, getOper] at hx h
        exact absurd ⟨hq, h ▸ hx.1⟩ (opClassFacts op).2.2.2.2.1
      | binary xop xa xb =>
        simp only [cleanE, Bool.and_eq_true, getOper] at hx h
        exact absurd ⟨hq, h ▸ hx.1.1⟩ (opClassFacts op).2.2.2.2.2.1
      | ternary xop xa xb xc =>
        simp only [cleanE, Bool.and_eq_true, getOper] at hx h
        exact absurd ⟨hq, h ▸ hx.1.1.1⟩ (opClassFacts op).2.2.2.2.2.2.1
      | typedExp xt xc =>
        simp only [getOper] at h
        exact absurd h hwq.2.2.2.2.2.2.1
      | refExp xc xd =>
        simp only [getOper] at h
        exact absurd h hwq.2.2.2.2.2.2.2
  | unary op c ih =>
    intro x hx h
    simp only [cleanE, Bool.and_eq_true] at hq
    have hw := clean_not_wild x hx
    cases x with
    | const xop xv xcs =>
      have w1 : xop ≠ Oper.opWild := hw.1
      have w4 : xop ≠ Oper.opWildMemOf := hw.2.2.2.1
      have w5 : xop ≠ Oper.opWildRegOf := hw.2.2.2.2.1
      have w6 : xop ≠ Oper.opWildAddrOf := hw.2.2.2.2.2
      simp [eqE, getOper, sub1, w1, w4, w5, w6] at h
    | terminal xop =>
      have w1 : xop ≠ Oper.opWild := hw.1
      have w4 : xop ≠ Oper.opWildMemOf := hw.2.2.2.1
      have w5 : xop ≠ Oper.opWildRegOf := hw.2.2.2.2.1
      have w6 : xop ≠ Oper.opWildAddrOf := hw.2.2.2.2.2
      simp [eqE, getOper, sub1, w1, w4, w5, w6] at h
    | unary xop xc =>
      have w1 : xop ≠ Oper.opWild := hw.1
      have w4 : xop ≠ Oper.opWildMemOf := hw.2.2.2.1
      have w5 : xop ≠ Oper.opWildRegOf := hw.2.2.2.2.1
      have w6 : xop ≠ Oper.opWildAddrOf := hw.2.2.2.2.2
      simp only [eqE, getOper, sub1, w1, w4, w5, w6, false_and, if_false] at h
      by_cases hop : op = xop <;> simp [hop] at h
      simp only [cleanE, Bool.and_eq_true] at hx
      simp [esize, ih hq.2 xc hx.2 h]
    | binary xop xa xb =>
      have w1 : xop ≠ Oper.opWild := hw.1
      have w4 : xop ≠ Oper.opWildMemOf := hw.2.2.2.1
      have w5 : xop ≠ Oper.opWildRegOf := hw.2.2.2.2.1
      have w6 : xop ≠ Oper.opWildAddrOf := hw.2.2.2.2.2
      simp only [eqE, getOper, sub1, w1, w4, w5, w6, false_and, if_false] at h
      by_cases hop : op = xop <;> simp [hop] at h
      simp only [cleanE, Bool.and_eq_true] at hx
      exact absurd ⟨hq.1, hop ▸ hx.1.1⟩ (opClassFacts op).2.2.2.2.2.2.2.1
    | ternary xop xa xb xc =>
      have w1 : xop ≠ Oper.opWild := hw.1
      have w4 : xop ≠ Oper.opWildMemOf := hw.2.2.2.1
      have w5 : xop ≠ Oper.opWildRegOf := hw.2.2.2.2.1
      have w6 : xop ≠ Oper.opWildAddrOf := hw.2.2.2.2.2
      simp only [eqE, getOper, sub1, w1, w4, w5, w6, false_and, if_false] at h
      by_cases hop : op = xop <;> simp [hop] at h
      simp only [cleanE, Bool.and_eq_true] at hx
      exact absurd ⟨hq.1, hop ▸ hx.1.1.1⟩ (opClassFacts op).2.2.2.2.2.2.2.2.1
    | typedExp xt xc =>
      have hwq := (opClassFacts op).2.2.2.2.2.2.2.2.2.2
        (Or.inr (Or.inr (Or.inl hq.1)))
      simp only [eqE, getOper, sub1, false_and, if_false] at h
      by_cases hop : op = Oper.opTypedExp <;> simp [hop] at h
      exact absurd hop hwq.2.2.2.2.2.2.1
    | refExp xc xd =>
      have hwq := (opClassFacts op).2.2.2.2.2.2.2.2.2.2
        (Or.inr (Or.inr (Or.inl hq.1)))
      simp only [eqE, getOper, sub1, false_and, if_false] at h
      by_cases hop : op = Oper.opSubscript <;> simp [hop] at h
      exact absurd hop hwq.2.2.2.2.2.2.2
  | binary op a b iha ihb =>
    intro x hx h
    simp only [cleanE, Bool.and_eq_true] at hq
    have hw := clean_not_wild x hx
    cases x with
    | const xop xv xcs =>
      have w1 : xop ≠ Oper.opWild := hw.1
      simp [eqE, getOper, w1] at h
    | terminal xop =>
      have w1 : xop ≠ Oper.opWild := hw.1
      simp [eqE, getOper, w1] at h
    | unary xop xc =>
      have w1 : xop ≠ Oper.opWild := hw.1
      simp [eqE, getOper, w1] at h
    | binary xop xa xb =>
      have w1 : xop ≠ Oper.opWild := hw.1
      simp only [eqE, getOper, w1, if_false] at h
      by_cases hop : op = xop <;> simp [hop] at h
      simp only [cleanE, Bool.and_eq_true] at hx
      simp [esize, iha hq.1.2 xa hx.1.2 h.1, ihb hq.2 xb hx.2 h.2]
    | ternary xop xa xb xc =>
      have w1 : xop ≠ Oper.opWild := hw.1
      simp only [eqE, getOper, w1, if_false] at h
      by_cases hop : op = xop <;> simp [hop] at h
      simp only [cleanE, Bool.and_eq_true] at hx
      exact absurd ⟨hq.1.1, hop ▸ hx.1.1.1⟩ (opClassFacts op).2.2.2.2.2.2.2.2.2.1
    | typedExp xt xc =>
      simp [eqE, getOper] at h
    | refExp xc xd =>
      simp [eqE, getOper] at h
  | ternary op a b c iha ihb ihc =>
    intro x hx h
    simp only [cleanE, Bool.and_eq_true] at hq
    have hw := clean_not_wild x hx
    cases x with
    | ternary xop xa xb xc =>
      have w1 : xop ≠ Oper.opWild := hw.1
      simp only [eqE, getOper, w1, if_false] at h
      by_cases hop : op = xop <;> simp [hop] at h
      simp only [cleanE, Bool.and_eq_true] at hx
      simp [esize, iha hq.1.1.2 xa hx.1.1.2 h.1.1, ihb hq.1.2 xb hx.1.2 h.1.2,
        ihc hq.2 xc hx.2 h.2]
    | const xop xv xcs =>
      have w1 : xop ≠ Oper.opWild := hw.1
      simp [eqE, getOper, w1] at h
    | terminal xop =>
      have w1 : xop ≠ Oper.opWild := hw.1
      simp [eqE, getOper, w1] at h
    | unary xop xc =>
      have w1 : xop ≠ Oper.opWild := hw.1
      simp [eqE, getOper, w1] at h
    | binary xop xa xb =>
      have w1 : xop ≠ Oper.opWild := hw.1
      simp [eqE, getOper, w1] at h
    | typedExp xt xc => simp [eqE, getOper] at h
    | refExp xc xd => simp [eqE, getOper] at h
  | typedExp t c ih =>
    intro x hx h
    simp only [cleanE] at hq
    have hw := clean_not_wild x hx
    cases x with
    | typedExp xt xc =>
      simp only [eqE, getOper, if_false] at h
      by_cases ht : t = xt <;> simp [ht] at h
      simp only [cleanE] at hx
      simp [esize, ih hq xc hx h]
    | const xop xv xcs =>
      have w1 : xop ≠ Oper.opWild := hw.1
      simp [eqE, getOper, w1] at h
    | terminal xop =>
      have w1 : xop ≠ Oper.opWild := hw.1
      simp [eqE, getOper, w1] at h
    | unary xop xc =>
      have w1 : xop ≠ Oper.opWild := hw.1
      simp [eqE, getOper, w1] at h
    | binary xop xa xb =>
      have w1 : xop ≠ Oper.opWild := hw.1
      simp [eqE, getOper, w1] at h
    | ternary xop xa xb xc =>
      have w1 : xop ≠ Oper.opWild := hw.1
      simp [eqE, getOper, w1] at h
    | refExp xc xd => simp [eqE, getOper] at h
  | refExp c d ih =>
    intro x hx h
    simp only [cleanE] at hq
    have hw := clean_not_wild x hx
    cases x with
    | refExp xc xd =>
      simp only [eqE, getOper, if_false] at h
      by_cases hc : eqE c xc = true
      · simp only [cleanE] at hx
        simp [esize, ih hq xc hx hc]
      · simp [hc] at h
    | const xop xv xcs =>
      have w1 : xop ≠ Oper.opWild := hw.1
      simp [eqE, getOper, w1] at h
    | terminal xop =>
      have w1 : xop ≠ Oper.opWild := hw.1
      have w5 : xop ≠ Oper.opWildRegOf := hw.2.2.2.2.1
      simp [eqE, getOper, w1, w5] at h
    | unary xop xc =>
      have w1 : xop ≠ Oper.opWild := hw.1
      simp [eqE, getOper, w1] at h
    | binary xop xa xb =>
      have w1 : xop ≠ Oper.opWild := hw.1
      simp [eqE, getOper, w1] at h
    | ternary xop xa xb xc =>
      have w1 : xop ≠ Oper.opWild := hw.1
      simp [eqE, getOper, w1] at h
    | typedExp xt xc => simp [eqE, getOper] at h

end Exp

namespace Exp

/-- Unfolding: when the pattern matches the whole tree, `replaceAll`
returns the replacement. -/
theorem replaceAll_found (e pat rep : Exp) (h : eqE pat e = true) :
    replaceAll e pat rep = rep := by
  rw [replaceAll.eq_def]
  simp [h, cloneE_id]

/-- Unfolding: an unmatched constant is returned unchanged. -/
theorem replaceAll_const (pat rep : Exp) (op : Oper) (v : CVal) (cs : Int)
    (h : ¬ eqE pat (.const op v cs) = true) :
    replaceAll (.const op v cs) pat rep = .const op v cs := by
  rw [replaceAll.eq_def]
  simp [h]

/-- Unfolding: an unmatched terminal is returned unchanged. -/
theorem replaceAll_terminal (pat rep : Exp) (op : Oper)
    (h : ¬ eqE pat (.terminal op) = true) :
    replaceAll (.terminal op) pat rep = .terminal op := by
  rw [replaceAll.eq_def]
  simp [h]

/-- Unfolding: an unmatched unary node recurses into its child, except under
`opInitValueOf` whose child is never descended into. -/
theorem replaceAll_unary (pat rep : Exp) (op : Oper) (c : Exp)
    (h : ¬ eqE pat (.unary op c) = true) :
    replaceAll (.unary op c) pat rep =
      if op = Oper.opInitValueOf then .unary op c
      else .unary op (replaceAll c pat rep) := by
  rw [replaceAll.eq_def]
  simp [h]

/-- Unfolding: an unmatched binary node recurses into both children. -/
theorem replaceAll_binary (pat rep : Exp) (op : Oper) (a b : Exp)
    (h : ¬ eqE pat (.binary op a b) = true) :
    replaceAll (.binary op a b) pat rep =
      .binary op (replaceAll a pat rep) (replaceAll b pat rep) := by
  rw [replaceAll.eq_def]
  simp [h]

/-- Unfolding: an unmatched ternary node recurses into all three children. -/
theorem replaceAll_ternary (pat rep : Exp) (op : Oper) (a b c : Exp)
    (h : ¬ eqE pat (.ternary op a b c) = true) :
    replaceAll (.ternary op a b c) pat rep =
      .ternary op (replaceAll a pat rep) (replaceAll b pat rep)
        (replaceAll c pat rep) := by
  rw [replaceAll.eq_def]
  simp [h]

/-- Unfolding: an unmatched typed expression recurses into its body. -/
theorem replaceAll_typedExp (pat rep : Exp) (t : Ty) (c : Exp)
    (h : ¬ eqE pat (.typedExp t c) = true) :
    replaceAll (.typedExp t c) pat rep = .typedExp t (replaceAll c pat rep) := by
  rw [replaceAll.eq_def]
  simp [h]

/-- Unfolding: an unmatched subscripted expression recurses into its base. -/
theorem replaceAll_refExp (pat rep : Exp) (c : Exp) (d : DefRef)
    (h : ¬ eqE pat (.refExp c d) = true) :
    replaceAll (.refExp c d) pat rep = .refExp (replaceAll c pat rep) d := by
  rw [replaceAll.eq_def]
  simp [h]

/-- Inversion for matches against a replaced tree: if a clean pattern piece
`x` no bigger than the (clean) replacement `q` matches `replaceAll e p q`,
then either it already matched `e` at the same place, or the whole of `e`
was replaced (so `p` matched `e` and `x` matches `q`).  This is the heart
of the round-trip argument: the second search cannot find `q` anywhere but
at the sites the first replacement created. -/
theorem replaceAll_match_inv (p q : Exp) (hq : cleanE q = true) :
    ∀ e, cleanE e = true → ∀ x, cleanE x = true → esize x ≤ esize q →
      eqE x (replaceAll e p q) = true →
      eqE x e = true ∨ (eqE p e = true ∧ eqE x q = true) := by
  intro e
  induction e with
  | const op v cs =>
    intro he x hx hsz h
    by_cases hpe : eqE p (.const op v cs) = true
    · rw [replaceAll_found _ _ _ hpe] at h
      exact Or.inr ⟨hpe, h⟩
    · rw [replaceAll_const _ _ _ _ _ hpe] at h
      exact Or.inl h
  | terminal op =>
    intro he x hx hsz h
    by_cases hpe : eqE p (.terminal op) = true
    · rw [replaceAll_found _ _ _ hpe] at h
      exact Or.inr ⟨hpe, h⟩
    · rw [replaceAll_terminal _ _ _ hpe] at h
      exact Or.inl h
  | unary op c ih =>
    intro he x hx hsz h
    by_cases hpe : eqE p (.unary op c) = true
    · rw [replaceAll_found _ _ _ hpe] at h
      exact Or.inr ⟨hpe, h⟩
    · rw [replaceAll_unary _ _ _ _ hpe] at h
      by_cases hinit : op = Oper.opInitValueOf
      · rw [if_pos hinit] at h
        exact Or.inl h
      · rw [if_neg hinit] at h
        simp only [cleanE, Bool.and_eq_true] at he
        have hwq := (opClassFacts op).2.2.2.2.2.2.2.2.2.2
          (Or.inr (Or.inr (Or.inl he.1)))
        refine Or.inl ?_
        cases x with
        | const xop xv xcs =>
          simp [eqE, getOper, hwq.1, hwq.2.1, hwq.2.2.1] at h
        | terminal xop =>
          simp only [cleanE] at hx
          have hwx := (opClassFacts xop).2.2.2.2.2.2.2.2.2.2 (Or.inr (Or.inl hx))
          simp only [eqE, getOper, hwx.1, hwx.2.1, hwx.2.2.1, hwx.2.2.2.1,
            hwx.2.2.2.2.1, hwx.2.2.2.2.2.1, if_false, decide_eq_true_eq] at h ⊢
          rcases h with h | h | h
          · exact h.elim
          · exact absurd h hwq.1
          · exact Or.inr (Or.inr h)
        | unary xop xc =>
          simp only [eqE, getOper, sub1, hwq.1, hwq.2.2.2.1, hwq.2.2.2.2.1,
            hwq.2.2.2.2.2.1, false_and, if_false] at h ⊢
          by_cases hop : xop = op <;> simp [hop] at h ⊢
          simp only [cleanE, Bool.and_eq_true] at hx
          have hxc := ih he.2 xc hx.2
            (le_trans (le_of_lt (by simp only [esize]; omega)) hsz) h
          rcases hxc with hl | ⟨hp1, hp2⟩
          · exact hl
          · have := eqE_size xc hx.2 q hq hp2
            simp only [esize] at hsz
            omega
        | binary xop xa xb =>
          simp [eqE, getOper, hwq.1] at h
        | ternary xop xa xb xc =>
          simp [eqE, getOper, hwq.1] at h
        | typedExp xt xc =>
          simp [eqE, getOper, hwq.1] at h
        | refExp xc xd =>
          simp [eqE, getOper, hwq.1, hwq.2.2.2.2.2.2.2] at h
  | binary op a b iha ihb =>
    intro he x hx hsz h
    by_cases hpe : eqE p (.binary op a b) = true
    · rw [replaceAll_found _ _ _ hpe] at h
      exact Or.inr ⟨hpe, h⟩
    · rw [replaceAll_binary _ _ _ _ _ hpe] at h
      simp only [cleanE, Bool.and_eq_true] at he
      have hwq := (opClassFacts op).2.2.2.2.2.2.2.2.2.2
        (Or.inr (Or.inr (Or.inr (Or.inl he.1.1))))
      refine Or.inl ?_
      cases x with
      | const xop xv xcs =>
        simp [eqE, getOper, hwq.1, hwq.2.1, hwq.2.2.1] at h
      | terminal xop =>
        simp only [cleanE] at hx
        have hwx := (opClassFacts xop).2.2.2.2.2.2.2.2.2.2 (Or.inr (Or.inl hx))
        simp only [eqE, getOper, hwx.1, hwx.2.1, hwx.2.2.1, hwx.2.2.2.1,
          hwx.2.2.2.2.1, hwx.2.2.2.2.2.1, if_false, decide_eq_true_eq] at h ⊢
        rcases h with h | h | h
        · exact h.elim
        · exact absurd h hwq.1
        · exact Or.inr (Or.inr h)
      | unary xop xc =>
        simp only [eqE, getOper, sub1, hwq.1, hwq.2.2.2.1, hwq.2.2.2.2.1,
          hwq.2.2.2.2.2.1, false_and, if_false] at h ⊢
        by_cases hop : xop = op <;> simp [hop] at h ⊢
        simp only [cleanE, Bool.and_eq_true] at hx
        exact absurd ⟨hx.1, hop ▸ he.1.1⟩ (opClassFacts xop).2.2.2.2.2.2.2.1
      | binary xop xa xb =>
        simp only [eqE, getOper, hwq.1, if_false] at h ⊢
        by_cases hop : xop = op <;> simp [hop] at h ⊢
        simp only [cleanE, Bool.and_eq_true] at hx
        have h1 := iha he.1.2 xa hx.1.2
          (le_trans (by simp only [esize]; omega) hsz) h.1
        have h2 := ihb he.2 xb hx.2
          (le_trans (by simp only [esize]; omega) hsz) h.2
        rcases h1 with h1 | ⟨_, hp2⟩
        · rcases h2 with h2 | ⟨_, hp2⟩
          · exact ⟨h1, h2⟩
          · have := eqE_size xb hx.2 q hq hp2
            simp only [esize] at hsz
            omega
        · have := eqE_size xa hx.1.2 q hq hp2
          simp only [esize] at hsz
          omega
      | ternary xop xa xb xc =>
        simp [eqE, getOper, hwq.1] at h
      | typedExp xt xc =>
        simp [eqE, getOper, hwq.1] at h
      | refExp xc xd =>
        simp [eqE, getOper, hwq.1] at h
  | ternary op a b c iha ihb ihc =>
    intro he x hx hsz h
    by_cases hpe : eqE p (.ternary op a b c) = true
    · rw [replaceAll_found _ _ _ hpe] at h
      exact Or.inr ⟨hpe, h⟩
    · rw [replaceAll_ternary _ _ _ _ _ _ hpe] at h
      simp only [cleanE, Bool.and_eq_true] at he
      have hwq := (opClassFacts op).2.2.2.2.2.2.2.2.2.2
        (Or.inr (Or.inr (Or.inr (Or.inr he.1.1.1))))
      refine Or.inl ?_
      cases x with
      | const xop xv xcs =>
        simp [eqE, getOper, hwq.1, hwq.2.1, hwq.2.2.1] at h
      | terminal xop =>
        simp only [cleanE] at hx
        have hwx := (opClassFacts xop).2.2.2.2.2.2.2.2.2.2 (Or.inr (Or.inl hx))
        simp only [eqE, getOper, hwx.1, hwx.2.1, hwx.2.2.1, hwx.2.2.2.1,
          hwx.2.2.2.2.1, hwx.2.2.2.2.2.1, if_false, decide_eq_true_eq] at h ⊢
        rcases h with h | h | h
        · exact h.elim
        · exact absurd h hwq.1
        · exact Or.inr (Or.inr h)
      | unary xop xc =>
        simp only [eqE, getOper, sub1, hwq.1, hwq.2.2.2.1, hwq.2.2.2.2.1,
          hwq.2.2.2.2.2.1, false_and, if_false] at h ⊢
        by_cases hop : xop = op <;> simp [hop] at h ⊢
        simp only [cleanE, Bool.and_eq_true] at hx
        exact absurd ⟨hx.1, hop ▸ he.1.1.1⟩ (opClassFacts xop).2.2.2.2.2.2.2.2.1
      | binary xop xa xb =>
        simp only [eqE, getOper, hwq.1, if_false] at h ⊢
        by_cases hop : xop = op <;> simp [hop] at h ⊢
        simp only [cleanE, Bool.and_eq_true] at hx
        exact absurd ⟨hx.1.1, hop ▸ he.1.1.1⟩ (opClassFacts xop).2.2.2.2.2.2.2.2.2.1
      | ternary xop xa xb xc =>
        simp only [eqE, getOper, hwq.1, if_false] at h ⊢
        by_cases hop : xop = op <;> simp [hop] at h ⊢
        simp only [cleanE, Bool.and_eq_true] at hx
        have h1 := iha he.1.1.2 xa hx.1.1.2
          (le_trans (by simp only [esize]; omega) hsz) h.1.1
        have h2 := ihb he.1.2 xb hx.1.2
          (le_trans (by simp only [esize]; omega) hsz) h.1.2
        have h3 := ihc he.2 xc hx.2
          (le_trans (by simp only [esize]; omega) hsz) h.2
        rcases h1 with h1 | ⟨_, hp⟩
        · rcases h2 with h2 | ⟨_, hp⟩
          · rcases h3 with h3 | ⟨_, hp⟩
            · exact ⟨⟨h1, h2⟩, h3⟩
            · have := eqE_size xc hx.2 q hq hp
              simp only [esize] at hsz
              omega
          · have := eqE_size xb hx.1.2 q hq hp
            simp only [esize] at hsz
            omega
        · have := eqE_size xa hx.1.1.2 q hq hp
          simp only [esize] at hsz
          omega
      | typedExp xt xc =>
        simp [eqE, getOper, hwq.1] at h
      | refExp xc xd =>
        simp [eqE, getOper, hwq.1] at h
  | typedExp t c ih =>
    intro he x hx hsz h
    by_cases hpe : eqE p (.typedExp t c) = true
    · rw [replaceAll_found _ _ _ hpe] at h
      exact Or.inr ⟨hpe, h⟩
    · rw [replaceAll_typedExp _ _ _ _ hpe] at h
      simp only [cleanE] at he
      refine Or.inl ?_
      cases x with
      | const xop xv xcs =>
        simp [eqE, getOper] at h
      | terminal xop =>
        simp only [cleanE] at hx
        have hwx := (opClassFacts xop).2.2.2.2.2.2.2.2.2.2 (Or.inr (Or.inl hx))
        simp only [eqE, getOper, hwx.1, hwx.2.1, hwx.2.2.1, hwx.2.2.2.1,
          hwx.2.2.2.2.1, hwx.2.2.2.2.2.1, if_false, decide_eq_true_eq] at h ⊢
        rcases h with h | h | h
        · exact h.elim
        · simp at h
        · exact absurd h hwx.2.2.2.2.2.2.1
      | unary xop xc =>
        simp only [cleanE, Bool.and_eq_true] at hx
        have hwx := (opClassFacts xop).2.2.2.2.2.2.2.2.2.2
          (Or.inr (Or.inr (Or.inl hx.1)))
        simp only [eqE, getOper, sub1, false_and, if_false] at h ⊢
        by_cases hop : xop = Oper.opTypedExp <;> simp [hop] at h ⊢
        exact absurd hop hwx.2.2.2.2.2.2.1
      | binary xop xa xb =>
        simp [eqE, getOper] at h
      | ternary xop xa xb xc =>
        simp [eqE, getOper] at h
      | typedExp xt xc =>
        simp only [eqE, getOper, if_false] at h ⊢
        by_cases ht : xt = t <;> simp [ht] at h ⊢
        simp only [cleanE] at hx
        have hxc := ih he xc hx (le_trans (by simp only [esize]; omega) hsz) h
        rcases hxc with hl | ⟨_, hp⟩
        · exact hl
        · have := eqE_size xc hx q hq hp
          simp only [esize] at hsz
          omega
      | refExp xc xd =>
        simp [eqE, getOper] at h
  | refExp c d ih =>
    intro he x hx hsz h
    by_cases hpe : eqE p (.refExp c d) = true
    · rw [replaceAll_found _ _ _ hpe] at h
      exact Or.inr ⟨hpe, h⟩
    · rw [replaceAll_refExp _ _ _ _ hpe] at h
      simp only [cleanE] at he
      refine Or.inl ?_
      cases x with
      | const xop xv xcs =>
        simp [eqE, getOper] at h
      | terminal xop =>
        simp only [cleanE] at hx
        have hwx := (opClassFacts xop).2.2.2.2.2.2.2.2.2.2 (Or.inr (Or.inl hx))
        simp only [eqE, getOper, hwx.1, hwx.2.1, hwx.2.2.1, hwx.2.2.2.1,
          hwx.2.2.2.2.1, hwx.2.2.2.2.2.1, if_false, decide_eq_true_eq] at h ⊢
        rcases h with h | h | h
        · exact h.elim
        · simp at h
        · exact absurd h hwx.2.2.2.2.2.2.2
      | unary xop xc =>
        simp only [cleanE, Bool.and_eq_true] at hx
        have hwx := (opClassFacts xop).2.2.2.2.2.2.2.2.2.2
          (Or.inr (Or.inr (Or.inl hx.1)))
        simp only [eqE, getOper, sub1, false_and, if_false] at h ⊢
        by_cases hop : xop = Oper.opSubscript <;> simp [hop] at h ⊢
        exact absurd hop hwx.2.2.2.2.2.2.2
      | binary xop xa xb =>
        simp [eqE, getOper] at h
      | ternary xop xa xb xc =>
        simp [eqE, getOper] at h
      | typedExp xt xc =>
        simp [eqE, getOper] at h
      | refExp xc xd =>
        simp only [eqE, getOper, if_false] at h ⊢
        by_cases hc : eqE xc (replaceAll c p q) = true
        · simp only [cleanE] at hx
          have hxc := ih he xc hx (le_trans (by simp only [esize]; omega) hsz) hc
          rcases hxc with hl | ⟨_, hp⟩
          · simp [hl, hc] at h ⊢
            exact h
          · have := eqE_size xc hx q hq hp
            simp only [esize] at hsz
            omega
        · simp [hc] at h

end Exp

namespace Exp

/-- Congruence for `eqE` at a clean unary node: replacing the child by an
`eqE`-equal tree keeps the node `eqE`-equal. -/
theorem eqE_unary_congr (op : Oper) (c' c : Exp)
    (he : cleanE (.unary op c) = true) (h : eqE c' c = true) :
    eqE (.unary op c') (.unary op c) = true := by
  simp only [cleanE, Bool.and_eq_true] at he
  have hw := (opClassFacts op).2.2.2.2.2.2.2.2.2.2 (Or.inr (Or.inr (Or.inl he.1)))
  simp [eqE, getOper, sub1, hw.1, hw.2.2.2.1, hw.2.2.2.2.1, hw.2.2.2.2.2.1, h]

/-- Congruence for `eqE` at a clean binary node. -/
theorem eqE_binary_congr (op : Oper) (a' b' a b : Exp)
    (he : cleanE (.binary op a b) = true)
    (h1 : eqE a' a = true) (h2 : eqE b' b = true) :
    eqE (.binary op a' b') (.binary op a b) = true := by
  simp only [cleanE, Bool.and_eq_true] at he
  have hw := (opClassFacts op).2.2.2.2.2.2.2.2.2.2
    (Or.inr (Or.inr (Or.inr (Or.inl he.1.1))))
  simp [eqE, getOper, hw.1, h1, h2]

/-- Congruence for `eqE` at a clean ternary node. -/
theorem eqE_ternary_congr (op : Oper) (a' b' c' a b c : Exp)
    (he : cleanE (.ternary op a b c) = true)
    (h1 : eqE a' a = true) (h2 : eqE b' b = true) (h3 : eqE c' c = true) :
    eqE (.ternary op a' b' c') (.ternary op a b c) = true := by
  simp only [cleanE, Bool.and_eq_true] at he
  have hw := (opClassFacts op).2.2.2.2.2.2.2.2.2.2
    (Or.inr (Or.inr (Or.inr (Or.inr he.1.1.1))))
  simp [eqE, getOper, hw.1, h1, h2, h3]

/-- Congruence for `eqE` at a typed-expression node. -/
theorem eqE_typedExp_congr (t : Ty) (c' c : Exp) (h : eqE c' c = true) :
    eqE (.typedExp t c') (.typedExp t c) = true := by
  simp [eqE, getOper, h]

/-- Congruence for `eqE` at a subscript node. -/
theorem eqE_refExp_congr (d : DefRef) (c' c : Exp) (h : eqE c' c = true) :
    eqE (.refExp c' d) (.refExp c d) = true := by
  simp [eqE, getOper, h, defEq_refl]

/-- An empty hit list means the pattern does not match at the root. -/
theorem doSearch_nil_root (pat : Exp) :
    ∀ e, doSearchL pat e = [] → eqE pat e = false := by
  intro e h
  by_cases hc : eqE pat e = true
  · cases e <;> simp [doSearchL, hc] at h
  · simpa using hc

/-- An empty hit list at a unary node (other than `opInitValueOf`) means an
empty hit list in the child. -/
theorem doSearch_nil_unary (pat : Exp) (op : Oper) (c : Exp)
    (h : doSearchL pat (.unary op c) = []) (hi : ¬ op = Oper.opInitValueOf) :
    doSearchL pat c = [] := by
  have hr := doSearch_nil_root pat (.unary op c) h
  simp [doSearchL, hr, hi] at h
  exact h

/-- An empty hit list at a binary node means empty hit lists in both
children. -/
theorem doSearch_nil_binary (pat : Exp) (op : Oper) (a b : Exp)
    (h : doSearchL pat (.binary op a b) = []) :
    doSearchL pat a = [] ∧ doSearchL pat b = [] := by
  have hr := doSearch_nil_root pat (.binary op a b) h
  simp [doSearchL, hr] at h
  exact h

/-- An empty hit list at a ternary node means empty hit lists in all three
children. -/
theorem doSearch_nil_ternary (pat : Exp) (op : Oper) (a b c : Exp)
    (h : doSearchL pat (.ternary op a b c) = []) :
    doSearchL pat a = [] ∧ doSearchL pat b = [] ∧ doSearchL pat c = [] := by
  have hr := doSearch_nil_root pat (.ternary op a b c) h
  simp [doSearchL, hr] at h
  exact h

/-- An empty hit list at a typed-expression node means an empty hit list in
the body. -/
theorem doSearch_nil_typedExp (pat : Exp) (t : Ty) (c : Exp)
    (h : doSearchL pat (.typedExp t c) = []) : doSearchL pat c = [] := by
  have hr := doSearch_nil_root pat (.typedExp t c) h
  simp [doSearchL, hr] at h
  exact h

/-- An empty hit list at a subscript node means an empty hit list in the
base. -/
theorem doSearch_nil_refExp (pat : Exp) (c : Exp) (d : DefRef)
    (h : doSearchL pat (.refExp c d) = []) : doSearchL pat c = [] := by
  have hr := doSearch_nil_root pat (.refExp c d) h
  simp [doSearchL, hr] at h
  exact h

/-- Replacing a pattern by itself leaves a clean tree `eqE`-equal to the
original (every site is overwritten by a copy of what it already matched,
or left alone). -/
theorem replaceAll_self (p : Exp) :
    ∀ e, cleanE e = true → eqE (replaceAll e p p) e = true := by
  intro e
  induction e with
  | const op v cs =>
    intro he
    by_cases hpe : eqE p (.const op v cs) = true
    · rw [replaceAll_found _ _ _ hpe]
      exact hpe
    · rw [replaceAll_const _ _ _ _ _ hpe]
      exact eqE_refl _ he
  | terminal op =>
    intro he
    by_cases hpe : eqE p (.terminal op) = true
    · rw [replaceAll_found _ _ _ hpe]
      exact hpe
    · rw [replaceAll_terminal _ _ _ hpe]
      exact eqE_refl _ he
  | unary op c ih =>
    intro he
    by_cases hpe : eqE p (.unary op c) = true
    · rw [replaceAll_found _ _ _ hpe]
      exact hpe
    · rw [replaceAll_unary _ _ _ _ hpe]
      by_cases hinit : op = Oper.opInitValueOf
      · rw [if_pos hinit]
        exact eqE_refl _ he
      · rw [if_neg hinit]
        have hc : cleanE c = true := by
          simp only [cleanE, Bool.and_eq_true] at he
          exact he.2
        exact eqE_unary_congr op _ c he (ih hc)
  | binary op a b iha ihb =>
    intro he
    by_cases hpe : eqE p (.binary op a b) = true
    · rw [replaceAll_found _ _ _ hpe]
      exact hpe
    · rw [replaceAll_binary _ _ _ _ _ hpe]
      have hab : cleanE a = true ∧ cleanE b = true := by
        simp only [cleanE, Bool.and_eq_true] at he
        exact ⟨he.1.2, he.2⟩
      exact eqE_binary_congr op _ _ a b he (iha hab.1) (ihb hab.2)
  | ternary op a b c iha ihb ihc =>
    intro he
    by_cases hpe : eqE p (.ternary op a b c) = true
    · rw [replaceAll_found _ _ _ hpe]
      exact hpe
    · rw [replaceAll_ternary _ _ _ _ _ _ hpe]
      have habc : cleanE a = true ∧ cleanE b = true ∧ cleanE c = true := by
        simp only [cleanE, Bool.and_eq_true] at he
        exact ⟨he.1.1.2, he.1.2, he.2⟩
      exact eqE_ternary_congr op _ _ _ a b c he (iha habc.1) (ihb habc.2.1)
        (ihc habc.2.2)
  | typedExp t c ih =>
    intro he
    by_cases hpe : eqE p (.typedExp t c) = true
    · rw [replaceAll_found _ _ _ hpe]
      exact hpe
    · rw [replaceAll_typedExp _ _ _ _ hpe]
      exact eqE_typedExp_congr t _ c (ih (by simpa [cleanE] using he))
  | refExp c d ih =>
    intro he
    by_cases hpe : eqE p (.refExp c d) = true
    · rw [replaceAll_found _ _ _ hpe]
      exact hpe
    · rw [replaceAll_refExp _ _ _ _ hpe]
      exact eqE_refExp_congr d _ c (ih (by simpa [cleanE] using he))

/-- Round trip: if the (clean) replacement `q` occurs nowhere in the clean
tree `e`, then replacing `p` by `q` and then `q` by `p` gives a tree
`eqE`-equal to `e`. -/
theorem replaceAll_roundtrip (p q : Exp) (hq : cleanE q = true) :
    ∀ e, cleanE e = true → doSearchL q e = [] →
      eqE (replaceAll (replaceAll e p q) q p) e = true := by
  intro e
  induction e with
  | const op v cs =>
    intro he hno
    have hroot := doSearch_nil_root q _ hno
    by_cases hpe : eqE p (.const op v cs) = true
    · rw [replaceAll_found _ _ _ hpe, replaceAll_found _ _ _ (eqE_refl q hq)]
      exact hpe
    · rw [replaceAll_const _ _ _ _ _ hpe,
        replaceAll_const _ _ _ _ _ (by simp [hroot])]
      exact eqE_refl _ he
  | terminal op =>
    intro he hno
    have hroot := doSearch_nil_root q _ hno
    by_cases hpe : eqE p (.terminal op) = true
    · rw [replaceAll_found _ _ _ hpe, replaceAll_found _ _ _ (eqE_refl q hq)]
      exact hpe
    · rw [replaceAll_terminal _ _ _ hpe,
        replaceAll_terminal _ _ _ (by simp [hroot])]
      exact eqE_refl _ he
  | unary op c ih =>
    intro he hno
    have hroot := doSearch_nil_root q _ hno
    by_cases hpe : eqE p (.unary op c) = true
    · rw [replaceAll_found _ _ _ hpe, replaceAll_found _ _ _ (eqE_refl q hq)]
      exact hpe
    · have hFe : ¬ eqE q (replaceAll (.unary op c) p q) = true := by
        intro hcon
        rcases replaceAll_match_inv p q hq (.unary op c) he q hq
          (le_refl _) hcon with hl | ⟨hp1, _⟩
        · simp [hroot] at hl
        · exact hpe hp1
      rw [replaceAll_unary p q op c hpe]
      by_cases hinit : op = Oper.opInitValueOf
      · rw [if_pos hinit, replaceAll_unary _ _ _ _ (by simp [hroot]),
          if_pos hinit]
        exact eqE_refl _ he
      · rw [if_neg hinit]
        rw [replaceAll_unary p q op c hpe, if_neg hinit] at hFe
        rw [replaceAll_unary _ _ _ _ hFe, if_neg hinit]
        have hc : cleanE c = true := by
          simp only [cleanE, Bool.and_eq_true] at he
          exact he.2
        exact eqE_unary_congr op _ c he
          (ih hc (doSearch_nil_unary q op c hno hinit))
  | binary op a b iha ihb =>
    intro he hno
    have hroot := doSearch_nil_root q _ hno
    by_cases hpe : eqE p (.binary op a b) = true
    · rw [replaceAll_found _ _ _ hpe, replaceAll_found _ _ _ (eqE_refl q hq)]
      exact hpe
    · have hFe : ¬ eqE q (replaceAll (.binary op a b) p q) = true := by
        intro hcon
        rcases replaceAll_match_inv p q hq (.binary op a b) he q hq
          (le_refl _) hcon with hl | ⟨hp1, _⟩
        · simp [hroot] at hl
        · exact hpe hp1
      rw [replaceAll_binary p q op a b hpe]
      rw [replaceAll_binary p q op a b hpe] at hFe
      rw [replaceAll_binary _ _ _ _ _ hFe]
      have hab : cleanE a = true ∧ cleanE b = true := by
        simp only [cleanE, Bool.and_eq_true] at he
        exact ⟨he.1.2, he.2⟩
      have hch := doSearch_nil_binary q op a b hno
      exact eqE_binary_congr op _ _ a b he (iha hab.1 hch.1) (ihb hab.2 hch.2)
  | ternary op a b c iha ihb ihc =>
    intro he hno
    have hroot := doSearch_nil_root q _ hno
    by_cases hpe : eqE p (.ternary op a b c) = true
    · rw [replaceAll_found _ _ _ hpe, replaceAll_found _ _ _ (eqE_refl q hq)]
      exact hpe
    · have hFe : ¬ eqE q (replaceAll (.ternary op a b c) p q) = true := by
        intro hcon
        rcases replaceAll_match_inv p q hq (.ternary op a b c) he q hq
          (le_refl _) hcon with hl | ⟨hp1, _⟩
        · simp [hroot] at hl
        · exact hpe hp1
      rw [replaceAll_ternary p q op a b c hpe]
      rw [replaceAll_ternary p q op a b c hpe] at hFe
      rw [replaceAll_ternary _ _ _ _ _ _ hFe]
      have habc : cleanE a = true ∧ cleanE b = true ∧ cleanE c = true := by
        simp only [cleanE, Bool.and_eq_true] at he
        exact ⟨he.1.1.2, he.1.2, he.2⟩
      have hch := doSearch_nil_ternary q op a b c hno
      exact eqE_ternary_congr op _ _ _ a b c he (iha habc.1 hch.1)
        (ihb habc.2.1 hch.2.1) (ihc habc.2.2 hch.2.2)
  | typedExp t c ih =>
    intro he hno
    have hroot := doSearch_nil_root q _ hno
    by_cases hpe : eqE p (.typedExp t c) = true
    · rw [replaceAll_found _ _ _ hpe, replaceAll_found _ _ _ (eqE_refl q hq)]
      exact hpe
    · have hFe : ¬ eqE q (replaceAll (.typedExp t c) p q) = true := by
        intro hcon
        rcases replaceAll_match_inv p q hq (.typedExp t c) he q hq
          (le_refl _) hcon with hl | ⟨hp1, _⟩
        · simp [hroot] at hl
        · exact hpe hp1
      rw [replaceAll_typedExp p q t c hpe]
      rw [replaceAll_typedExp p q t c hpe] at hFe
      rw [replaceAll_typedExp _ _ _ _ hFe]
      exact eqE_typedExp_congr t _ c
        (ih (by simpa [cleanE] using he) (doSearch_nil_typedExp q t c hno))
  | refExp c d ih =>
    intro he hno
    have hroot := doSearch_nil_root q _ hno
    by_cases hpe : eqE p (.refExp c d) = true
    · rw [replaceAll_found _ _ _ hpe, replaceAll_found _ _ _ (eqE_refl q hq)]
      exact hpe
    · have hFe : ¬ eqE q (replaceAll (.refExp c d) p q) = true := by
        intro hcon
        rcases replaceAll_match_inv p q hq (.refExp c d) he q hq
          (le_refl _) hcon with hl | ⟨hp1, _⟩
        · simp [hroot] at hl
        · exact hpe hp1
      rw [replaceAll_refExp p q c d hpe]
      rw [replaceAll_refExp p q c d hpe] at hFe
      rw [replaceAll_refExp _ _ _ _ hFe]
      exact eqE_refExp_congr d _ c
        (ih (by simpa [cleanE] using he) (doSearch_nil_refExp q c d hno))

end Exp

namespace Exp

/-- **C6** (amended): the search/replace round trip holds on clean trees
(no wildcard tags, every conscript zero).  If `search(e, p)` finds a hit
then `searchReplaceAll(e, p, p)` is structurally equal to `e`; and when `q`
(itself clean) does not occur in the clean tree `e`,
`searchReplaceAll(searchReplaceAll(e, p, q), q, p)` is structurally equal
to `e`.  The claim as stated over all expressions is false: a tree holding
a conscripted constant is not even structurally equal to itself
(see `C6_conscript_roundtrip_failure`), because `Const::operator==`
(exp.cpp:320) rejects any right operand with a non-zero conscript. -/
theorem C6_search_replace_roundtrip :
    (∀ e p, cleanE e = true → searchFound p e = true →
        eqE (replaceAll e p p) e = true) ∧
    (∀ e p q, cleanE e = true → cleanE q = true → searchFound q e = false →
        eqE (replaceAll (replaceAll e p q) q p) e = true) := by
  constructor
  · intro e p he _
    exact replaceAll_self p e he
  · intro e p q he hq hno
    exact replaceAll_roundtrip p q hq e he (by simpa [searchFound] using hno)

/-- Witness for `C6_search_replace_roundtrip`: both parts at
`e = pc + 3`, `p = pc`, `q = 7`. -/
theorem C6_search_replace_roundtrip_witness :
    (cleanE (Exp.binary .opPlus (.terminal .opPC)
        (.const .opIntConst (.intVal 3) 0)) = true ∧
      searchFound (.terminal .opPC) (Exp.binary .opPlus (.terminal .opPC)
        (.const .opIntConst (.intVal 3) 0)) = true ∧
      eqE (replaceAll (Exp.binary .opPlus (.terminal .opPC)
          (.const .opIntConst (.intVal 3) 0)) (.terminal .opPC)
          (.terminal .opPC))
        (Exp.binary .opPlus (.terminal .opPC)
          (.const .opIntConst (.intVal 3) 0)) = true) ∧
    (cleanE (Exp.const .opIntConst (.intVal 7) 0 : Exp) = true ∧
      searchFound (.const .opIntConst (.intVal 7) 0)
        (Exp.binary .opPlus (.terminal .opPC)
          (.const .opIntConst (.intVal 3) 0)) = false ∧
      eqE (replaceAll (replaceAll (Exp.binary .opPlus (.terminal .opPC)
            (.const .opIntConst (.intVal 3) 0)) (.terminal .opPC)
            (.const .opIntConst (.intVal 7) 0))
          (.const .opIntConst (.intVal 7) 0) (.terminal .opPC))
        (Exp.binary .opPlus (.terminal .opPC)
          (.const .opIntConst (.intVal 3) 0)) = true) :=
  ⟨⟨by decide, by decide,
    C6_search_replace_roundtrip.1
      (Exp.binary .opPlus (.terminal .opPC) (.const .opIntConst (.intVal 3) 0))
      (.terminal .opPC) (by decide) (by decide)⟩,
   ⟨by decide, by decide,
    C6_search_replace_roundtrip.2
      (Exp.binary .opPlus (.terminal .opPC) (.const .opIntConst (.intVal 3) 0))
      (.terminal .opPC) (.const .opIntConst (.intVal 7) 0)
      (by decide) (by decide) (by decide)⟩⟩

/-- **C6** counterexample to the unrestricted claim: on
`exC6 = 42{1} + pc` (a tree holding a constant with conscript 1), searching
for `pc` finds a hit, yet replacing `pc` by itself yields a tree that is
*not* structurally equal to `exC6`; likewise the two-step round trip
through the fresh constant `7` fails, in both cases because the conscripted
constant `42{1}` fails `Const::operator==` against itself (exp.cpp:320). -/
theorem C6_conscript_roundtrip_failure :
    searchFound (.terminal .opPC) exC6 = true ∧
    eqE (replaceAll exC6 (.terminal .opPC) (.terminal .opPC)) exC6 = false ∧
    searchFound (.const .opIntConst (.intVal 7) 0) exC6 = false ∧
    eqE (replaceAll (replaceAll exC6 (.terminal .opPC)
          (.const .opIntConst (.intVal 7) 0))
        (.const .opIntConst (.intVal 7) 0) (.terminal .opPC)) exC6 = false := by
  decide

end Exp

namespace Exp

/-- **C3**: simplification is *not* idempotent.  On
`exOscill = a[g1{-}] + a[g2{-}]` the third commutation canonicalisation
(exp.cpp:2564-2570) swaps the operands on every pass without setting the
modification flag, so each `simplify` call performs exactly one swap and
returns: consecutive calls alternate between the two operand orders, and
`simplify(simplify(e))` is not structurally equal to `simplify(e)` - it is
the original `e` again. -/
theorem C3_simplify_not_idempotent :
    simplify exOscill = .binary .opPlus (agOf "g2") (agOf "g1") ∧
    simplify (simplify exOscill) = exOscill ∧
    eqE (simplify (simplify exOscill)) (simplify exOscill) = false := by
  decide

end Exp

namespace Exp

/-- Every tree has at least one node. -/
theorem esize_pos (e : Exp) : 1 ≤ esize e := by
  cases e <;> simp [esize] <;> omega

/-- The invariant of the measure argument: a step from `e` to `r.1` with
incoming flag `b` keeps each measure component, and if it reports a
modification that the incoming flag does not explain, the combined measure
strictly drops. -/
def StepOK (e : Exp) (r : Exp × Bool) (b : Bool) : Prop :=
  esize r.1 ≤ esize e ∧ shiftCount r.1 ≤ shiftCount e ∧
    omegaPM r.1 ≤ omegaPM e ∧
    (r.2 = true → b = true ∨ mExp r.1 < mExp e)

/-- Componentwise bounds for `getSubExp1`. -/
theorem sub1_measure (c cc : Exp) (h : sub1 c = some cc) :
    esize cc < esize c ∧ shiftCount cc ≤ shiftCount c ∧
      omegaPM cc ≤ omegaPM c := by
  cases c <;> simp [sub1] at h <;> subst h <;>
    simp only [esize, shiftCount, omegaPM] <;> omega

end Exp

namespace Exp

/-- An integer-constant payload determines the node's measures. -/
theorem intConstVal_measure (e : Exp) (k : Int) (h : intConstVal e = some k) :
    esize e = 1 ∧ shiftCount e = 0 ∧ omegaPM e = 0 := by
  cases e with
  | const op v cs =>
    cases op <;> cases v <;> simp [intConstVal] at h <;>
      simp [esize, shiftCount, omegaPM]
  | terminal op => simp [intConstVal, getOper] at h
  | unary op c => simp [intConstVal, getOper] at h
  | binary op a b => simp [intConstVal, getOper] at h
  | ternary op a b c => simp [intConstVal, getOper] at h
  | typedExp t c => simp [intConstVal, getOper] at h
  | refExp c d => simp [intConstVal, getOper] at h

/-- `intConstParts` likewise pins the shape down. -/
theorem intConstParts_shape (e : Exp) (k cs : Int)
    (h : intConstParts e = some (k, cs)) :
    e = .const .opIntConst (.intVal k) cs := by
  cases e with
  | const op v c =>
    cases op <;> cases v <;> simp_all [intConstParts]
  | terminal op => simp [intConstParts] at h
  | unary op c => simp [intConstParts] at h
  | binary op a b => simp [intConstParts] at h
  | ternary op a b c => simp [intConstParts] at h
  | typedExp t c => simp [intConstParts] at h
  | refExp c d => simp [intConstParts] at h

/-- `binA` only fires with a counted modification and a strict measure
drop. -/
theorem binA2_mono (op : Oper) (s1 s2 : Exp) (r : Exp × Bool)
    (h : binA.binA2 op s1 s2 = some r) :
    esize r.1 ≤ esize (.binary op s1 s2) ∧
      shiftCount r.1 ≤ shiftCount (.binary op s1 s2) ∧
      omegaPM r.1 ≤ omegaPM (.binary op s1 s2) ∧
      mExp r.1 < mExp (.binary op s1 s2) := by
  have e1 := esize_pos s1
  have e2 := esize_pos s2
  simp only [binA.binA2] at h
  split_ifs at h <;> simp only [Option.some.injEq] at h <;> subst h <;>
    simp only [mExp, mkInt, esize, shiftCount, omegaPM] <;> omega

/-- Constant folding and the self-operation rules strictly decrease the
measure. -/
theorem binA_mono (op : Oper) (s1 s2 : Exp) (r : Exp × Bool)
    (h : binA op s1 s2 = some r) :
    esize r.1 ≤ esize (.binary op s1 s2) ∧
      shiftCount r.1 ≤ shiftCount (.binary op s1 s2) ∧
      omegaPM r.1 ≤ omegaPM (.binary op s1 s2) ∧
      mExp r.1 < mExp (.binary op s1 s2) := by
  have e1 := esize_pos s1
  have e2 := esize_pos s2
  simp only [binA] at h
  split at h
  next k1 k2 h1 h2 =>
    split at h
    next k hf =>
      simp only [Option.some.injEq] at h
      subst h
      simp only [mExp, mkInt, esize, shiftCount, omegaPM]
      omega
    next => exact binA2_mono op s1 s2 r h
  next => exact binA2_mono op s1 s2 r h

end Exp

namespace Exp

/-- The uncounted commutations preserve each measure component exactly. -/
theorem binCommute_measure (op : Oper) (s1 s2 : Exp) :
    esize (.binary op (binCommute op s1 s2).1 (binCommute op s1 s2).2) =
        esize (.binary op s1 s2) ∧
      shiftCount (.binary op (binCommute op s1 s2).1 (binCommute op s1 s2).2) =
        shiftCount (.binary op s1 s2) ∧
      omegaPM (.binary op (binCommute op s1 s2).1 (binCommute op s1 s2).2) =
        omegaPM (.binary op s1 s2) := by
  simp only [binCommute]
  split_ifs <;> refine ⟨?_, ?_, ?_⟩ <;>
    simp only [esize, shiftCount, omegaPM] <;>
    first
      | omega
      | (split_ifs <;> omega)

/-- The uncounted plus-minus flip preserves each measure component
exactly. -/
theorem binFlip_measure (op : Oper) (s1 s2 : Exp) :
    esize (.binary (binFlip op s1 s2).1 (binFlip op s1 s2).2.1
          (binFlip op s1 s2).2.2) =
        esize (.binary op s1 s2) ∧
      shiftCount (.binary (binFlip op s1 s2).1 (binFlip op s1 s2).2.1
          (binFlip op s1 s2).2.2) =
        shiftCount (.binary op s1 s2) ∧
      omegaPM (.binary (binFlip op s1 s2).1 (binFlip op s1 s2).2.1
          (binFlip op s1 s2).2.2) =
        omegaPM (.binary op s1 s2) := by
  simp only [binFlip]
  split
  next hop =>
    split
    next k cs hk =>
      have hs2 := intConstParts_shape s2 k cs hk
      subst hs2
      split_ifs with h1 h2 <;>
        rcases hop with hop | hop <;> subst hop <;>
        simp [esize, shiftCount, omegaPM] <;> omega
    next => exact ⟨rfl, rfl, rfl⟩
  next => exact ⟨rfl, rfl, rfl⟩

end Exp

namespace Exp

/-- `x + (x * k) → x * (k + 1)` strictly decreases the measure (the plus
node disappears; the new inner plus is smaller than the old outer one). -/
theorem binD1d_mono (op : Oper) (s1 s2 : Exp) (r : Exp × Bool)
    (h : binD1.binD1d op s1 s2 = some r) :
    esize r.1 ≤ esize (.binary op s1 s2) ∧
      shiftCount r.1 ≤ shiftCount (.binary op s1 s2) ∧
      omegaPM r.1 ≤ omegaPM (.binary op s1 s2) ∧
      mExp r.1 < mExp (.binary op s1 s2) := by
  have e1 := esize_pos s1
  simp only [binD1.binD1d] at h
  split at h
  next m y k =>
    split_ifs at h with hg
    simp only [Option.some.injEq] at h
    subst h
    obtain ⟨hop, hm, _⟩ := hg
    subst hop
    have e2 := esize_pos y
    have e3 := esize_pos k
    rcases hm with hm | hm <;> subst hm <;>
      simp [mExp, mkInt, esize, shiftCount, omegaPM] <;> omega
  next => simp at h

/-- `(x * k) ± x → x * (k ± 1)` strictly decreases the measure. -/
theorem binD1c_mono (op : Oper) (s1 s2 : Exp) (r : Exp × Bool)
    (h : binD1.binD1c op s1 s2 = some r) :
    esize r.1 ≤ esize (.binary op s1 s2) ∧
      shiftCount r.1 ≤ shiftCount (.binary op s1 s2) ∧
      omegaPM r.1 ≤ omegaPM (.binary op s1 s2) ∧
      mExp r.1 < mExp (.binary op s1 s2) := by
  have e1 := esize_pos s2
  simp only [binD1.binD1c] at h
  split at h
  next m x k =>
    split_ifs at h with hg
    · simp only [Option.some.injEq] at h
      subst h
      obtain ⟨hop, hm, _⟩ := hg
      have e2 := esize_pos x
      have e3 := esize_pos k
      rcases hop with hop | hop <;> rcases hm with hm | hm <;>
        subst hop <;> subst hm <;>
        simp [mExp, mkInt, esize, shiftCount, omegaPM] <;> omega
    · exact binD1d_mono op _ s2 r h
  next => exact binD1d_mono op s1 s2 r h

/-- `(x - a) + b → x + (b - a)` strictly decreases the measure. -/
theorem binD1b_mono (op : Oper) (s1 s2 : Exp) (r : Exp × Bool)
    (h : binD1.binD1b op s1 s2 = some r) :
    esize r.1 ≤ esize (.binary op s1 s2) ∧
      shiftCount r.1 ≤ shiftCount (.binary op s1 s2) ∧
      omegaPM r.1 ≤ omegaPM (.binary op s1 s2) ∧
      mExp r.1 < mExp (.binary op s1 s2) := by
  simp only [binD1.binD1b] at h
  split_ifs at h with hg
  · split at h
    next x a2 n hmatch =>
      split at h
      next a cs hparts =>
        simp only [Option.some.injEq] at h
        subst h
        obtain ⟨hop, _⟩ := hg
        subst hop
        have := intConstParts_shape a2 a cs hparts
        subst this
        obtain ⟨hv, hs, ho⟩ := intConstVal_measure s2 n hmatch
        have e2 := esize_pos x
        simp [mExp, esize, shiftCount, omegaPM]
        omega
      next => exact binD1c_mono _ _ _ r h
    next => exact binD1c_mono _ _ _ r h
  · exact binD1c_mono op s1 s2 r h

/-- The constant-association rules strictly decrease the measure. -/
theorem binD1_mono (op : Oper) (s1 s2 : Exp) (r : Exp × Bool)
    (h : binD1 op s1 s2 = some r) :
    esize r.1 ≤ esize (.binary op s1 s2) ∧
      shiftCount r.1 ≤ shiftCount (.binary op s1 s2) ∧
      omegaPM r.1 ≤ omegaPM (.binary op s1 s2) ∧
      mExp r.1 < mExp (.binary op s1 s2) := by
  simp only [binD1] at h
  split_ifs at h with hg
  · split at h
    next x a2 n hmatch =>
      split at h
      next a cs hparts =>
        simp only [Option.some.injEq] at h
        subst h
        obtain ⟨hop, _⟩ := hg
        subst hop
        have := intConstParts_shape a2 a cs hparts
        subst this
        obtain ⟨hv, hs, ho⟩ := intConstVal_measure s2 n hmatch
        have e2 := esize_pos x
        simp [mExp, esize, shiftCount, omegaPM]
        omega
      next => exact binD1b_mono _ _ _ r h
    next => exact binD1b_mono _ _ _ r h
  · exact binD1b_mono op s1 s2 r h

end Exp

namespace Exp

/-- The trailing identity/absorbing/shift-conversion rules strictly
decrease the measure (the shift conversions trade an `opShiftL`/`opShiftR`
node for a same-size multiplication or division). -/
theorem binD2b_mono (op : Oper) (s1 s2 : Exp) (r : Exp × Bool)
    (h : binD2.binD2b op s1 s2 = some r) :
    esize r.1 ≤ esize (.binary op s1 s2) ∧
      shiftCount r.1 ≤ shiftCount (.binary op s1 s2) ∧
      omegaPM r.1 ≤ omegaPM (.binary op s1 s2) ∧
      mExp r.1 < mExp (.binary op s1 s2) := by
  have e1 := esize_pos s1
  have e2 := esize_pos s2
  simp only [binD2.binD2b] at h
  split_ifs at h with h1 h2 h3 h4 h5
  · simp only [Option.some.injEq] at h
    subst h
    simp [mExp, esize, shiftCount, omegaPM] <;> omega
  · simp only [Option.some.injEq] at h
    subst h
    simp [mExp, mkInt, esize, shiftCount, omegaPM] <;> omega
  · simp only [Option.some.injEq] at h
    subst h
    simp [mExp, esize, shiftCount, omegaPM] <;> omega
  · simp only [Option.some.injEq] at h
    subst h
    simp [mExp, esize, shiftCount, omegaPM] <;> omega
  · simp only [Option.some.injEq] at h
    subst h
    simp [mExp, esize, shiftCount, omegaPM] <;> omega
  · split at h
    next k cs hparts =>
      have := intConstParts_shape s2 k cs hparts
      subst this
      split_ifs at h with hs1 hs2
      · simp only [Option.some.injEq] at h
        subst h
        obtain ⟨hop, _⟩ := hs1
        subst hop
        simp [mExp, esize, shiftCount, omegaPM] <;> omega
      · simp only [Option.some.injEq] at h
        subst h
        obtain ⟨hop, _⟩ := hs2
        subst hop
        simp [mExp, esize, shiftCount, omegaPM] <;> omega
    next => simp at h

/-- The identity/absorbing rules of exp.cpp:2620-2727 strictly decrease the
measure. -/
theorem binD2_mono (op : Oper) (s1 s2 : Exp) (r : Exp × Bool)
    (h : binD2 op s1 s2 = some r) :
    esize r.1 ≤ esize (.binary op s1 s2) ∧
      shiftCount r.1 ≤ shiftCount (.binary op s1 s2) ∧
      omegaPM r.1 ≤ omegaPM (.binary op s1 s2) ∧
      mExp r.1 < mExp (.binary op s1 s2) := by
  have e1 := esize_pos s1
  have e2 := esize_pos s2
  simp only [binD2] at h
  split_ifs at h with h1 h2 h3 h4 h5
  · simp only [Option.some.injEq] at h
    subst h
    simp [mExp, esize, shiftCount, omegaPM] <;> omega
  · simp only [Option.some.injEq] at h
    subst h
    simp [mExp, esize, shiftCount, omegaPM] <;> omega
  · simp only [Option.some.injEq] at h
    subst h
    simp [mExp, mkInt, esize, shiftCount, omegaPM] <;> omega
  · simp only [Option.some.injEq] at h
    subst h
    simp [mExp, esize, shiftCount, omegaPM] <;> omega
  · simp only [Option.some.injEq] at h
    subst h
    simp [mExp, esize, shiftCount, omegaPM] <;> omega
  · split at h
    next m x y =>
      split_ifs at h with hq1 hq2
      · simp only [Option.some.injEq] at h
        subst h
        have e3 := esize_pos x
        have e4 := esize_pos y
        simp [mExp, esize, shiftCount, omegaPM] <;> omega
      · simp only [Option.some.injEq] at h
        subst h
        have e3 := esize_pos x
        have e4 := esize_pos y
        simp [mExp, mkInt, esize, shiftCount, omegaPM] <;> omega
      · exact binD2b_mono _ _ _ r h
    next => exact binD2b_mono _ _ _ r h

end Exp

namespace Exp

/-- The comparison-absorption rule strictly decreases the measure. -/
theorem binD3b_mono (op : Oper) (s1 s2 : Exp) (r : Exp × Bool)
    (h : binD3.binD3b op s1 s2 = some r) :
    esize r.1 ≤ esize (.binary op s1 s2) ∧
      shiftCount r.1 ≤ shiftCount (.binary op s1 s2) ∧
      omegaPM r.1 ≤ omegaPM (.binary op s1 s2) ∧
      mExp r.1 < mExp (.binary op s1 s2) := by
  simp only [binD3.binD3b] at h
  split at h
  next m1 a1 a2 b1 b2 =>
    split_ifs at h with hg
    simp only [Option.some.injEq] at h
    subst h
    have e1 := esize_pos b1
    have e2 := esize_pos b2
    simp [mExp, esize, shiftCount, omegaPM] <;> omega
  next => simp at h

/-- The comparison normalisations against 0 and 1 strictly decrease the
measure. -/
theorem binD3_mono (op : Oper) (s1 s2 : Exp) (r : Exp × Bool)
    (h : binD3 op s1 s2 = some r) :
    esize r.1 ≤ esize (.binary op s1 s2) ∧
      shiftCount r.1 ≤ shiftCount (.binary op s1 s2) ∧
      omegaPM r.1 ≤ omegaPM (.binary op s1 s2) ∧
      mExp r.1 < mExp (.binary op s1 s2) := by
  simp only [binD3] at h
  split at h
  next x y hv =>
    obtain ⟨he2, hs2, ho2⟩ := intConstVal_measure s2 1 hv
    split_ifs at h with hq1 hq2
    · simp only [Option.some.injEq] at h
      subst h
      simp [mExp, esize, shiftCount, omegaPM] <;> omega
    · simp only [Option.some.injEq] at h
      subst h
      simp [mExp, esize, shiftCount, omegaPM] <;> omega
    · exact binD3b_mono _ _ _ r h
  next x y hv =>
    obtain ⟨he2, hs2, ho2⟩ := intConstVal_measure s2 0 hv
    split_ifs at h with hq1 hq2
    · simp only [Option.some.injEq] at h
      subst h
      simp [mExp, esize, shiftCount, omegaPM] <;> omega
    · simp only [Option.some.injEq] at h
      subst h
      simp [mExp, esize, shiftCount, omegaPM] <;> omega
    · exact binD3b_mono _ _ _ r h
  next x a2 hv =>
    obtain ⟨he2, hs2, ho2⟩ := intConstVal_measure s2 0 hv
    split_ifs at h with hq1
    · split at h
      next n cs hparts =>
        have := intConstParts_shape a2 n cs hparts
        subst this
        split_ifs at h with hq2
        · simp only [Option.some.injEq] at h
          subst h
          have e1 := esize_pos x
          simp [mExp, esize, shiftCount, omegaPM] <;> omega
        · exact binD3b_mono _ _ _ r h
      next => exact binD3b_mono _ _ _ r h
    · exact binD3b_mono _ _ _ r h
  next z x hv =>
    obtain ⟨he2, hs2, ho2⟩ := intConstVal_measure s2 0 hv
    split_ifs at h with hq1
    · simp only [Option.some.injEq] at h
      subst h
      obtain ⟨hop, hz⟩ := hq1
      obtain ⟨hez, hsz, hoz⟩ := intConstVal_measure z 0 hz
      simp [mExp, esize, shiftCount, omegaPM, cloneE_id] <;> omega
    · exact binD3b_mono _ _ _ r h
  next x y hv =>
    obtain ⟨he2, hs2, ho2⟩ := intConstVal_measure s2 0 hv
    split_ifs at h with hq1
    · simp only [Option.some.injEq] at h
      subst h
      simp [mExp, esize, shiftCount, omegaPM] <;> omega
    · exact binD3b_mono _ _ _ r h
  next x y hv =>
    obtain ⟨he2, hs2, ho2⟩ := intConstVal_measure s2 0 hv
    split_ifs at h with hq1
    · simp only [Option.some.injEq] at h
      subst h
      simp [mExp, esize, shiftCount, omegaPM] <;> omega
    · exact binD3b_mono _ _ _ r h
  next => exact binD3b_mono _ _ _ r h

end Exp

namespace Exp

/-- Retagging a node between operators that are neither shifts nor
plus-minus leaves every measure component unchanged. -/
theorem setOperE_measure (s : Exp) (newOp : Oper)
    (hold : ¬ (getOper s = .opShiftL ∨ getOper s = .opShiftR) ∧
      ¬ (getOper s = .opPlus ∨ getOper s = .opMinus))
    (hnew : ¬ (newOp = .opShiftL ∨ newOp = .opShiftR) ∧
      ¬ (newOp = .opPlus ∨ newOp = .opMinus)) :
    esize (setOperE s newOp) = esize s ∧
      shiftCount (setOperE s newOp) = shiftCount s ∧
      omegaPM (setOperE s newOp) = omegaPM s := by
  cases s <;>
    simp_all [setOperE, getOper, esize, shiftCount, omegaPM]

/-- The `opSize` elimination strictly decreases the measure. -/
theorem binF8_mono (op : Oper) (s1 s2 : Exp) (r : Exp × Bool)
    (h : binF.binF8 op s1 s2 = some r) :
    esize r.1 ≤ esize (.binary op s1 s2) ∧
      shiftCount r.1 ≤ shiftCount (.binary op s1 s2) ∧
      omegaPM r.1 ≤ omegaPM (.binary op s1 s2) ∧
      mExp r.1 < mExp (.binary op s1 s2) := by
  have e1 := esize_pos s1
  simp only [binF.binF8] at h
  split_ifs at h with hg
  simp only [Option.some.injEq] at h
  subst h
  simp [mExp, esize, shiftCount, omegaPM] <;> omega

/-- The `0 - (0 <u x) & y → y` rule strictly decreases the measure. -/
theorem binF7_mono (op : Oper) (s1 s2 : Exp) (r : Exp × Bool)
    (h : binF.binF7 op s1 s2 = some r) :
    esize r.1 ≤ esize (.binary op s1 s2) ∧
      shiftCount r.1 ≤ shiftCount (.binary op s1 s2) ∧
      omegaPM r.1 ≤ omegaPM (.binary op s1 s2) ∧
      mExp r.1 < mExp (.binary op s1 s2) := by
  simp only [binF.binF7] at h
  split at h
  next z rr =>
    split_ifs at h with hg
    · simp only [Option.some.injEq] at h
      subst h
      have e1 := esize_pos z
      have e2 := esize_pos rr
      simp [mExp, esize, shiftCount, omegaPM] <;> omega
    · exact binF8_mono _ _ _ r h
  next => exact binF8_mono _ _ _ r h

/-- The divide/modulo distribution rules strictly decrease the measure. -/
theorem binF6_mono (op : Oper) (s1 s2 : Exp) (r : Exp × Bool)
    (h : binF.binF6 op s1 s2 = some r) :
    esize r.1 ≤ esize (.binary op s1 s2) ∧
      shiftCount r.1 ≤ shiftCount (.binary op s1 s2) ∧
      omegaPM r.1 ≤ omegaPM (.binary op s1 s2) ∧
      mExp r.1 < mExp (.binary op s1 s2) := by
  simp only [binF.binF6] at h
  split at h
  next x ae y be c hv =>
    obtain ⟨he2, hs2, ho2⟩ := intConstVal_measure s2 c hv
    split at h
    next a bb ha hb =>
      obtain ⟨hea, hsa, hoa⟩ := intConstVal_measure ae a ha
      obtain ⟨heb, hsb, hob⟩ := intConstVal_measure be bb hb
      have ex := esize_pos x
      have ey := esize_pos y
      split_ifs at h with hq1 hq2 hq3 hq4 hq5 <;>
        first
          | exact binF7_mono _ _ _ r h
          | (simp only [Option.some.injEq] at h
             subst h
             simp [mExp, mkInt, esize, shiftCount, omegaPM, cloneE_id] <;>
               omega)
    next => exact binF7_mono _ _ _ r h
  next => exact binF7_mono _ _ _ r h

/-- `(x + y*n) ± n → x + (y ± 1)*n` strictly decreases the measure. -/
theorem binF5_mono (op : Oper) (s1 s2 : Exp) (r : Exp × Bool)
    (h : binF.binF5 op s1 s2 = some r) :
    esize r.1 ≤ esize (.binary op s1 s2) ∧
      shiftCount r.1 ≤ shiftCount (.binary op s1 s2) ∧
      omegaPM r.1 ≤ omegaPM (.binary op s1 s2) ∧
      mExp r.1 < mExp (.binary op s1 s2) := by
  simp only [binF.binF5] at h
  split at h
  next x m2 y k2e =>
    split_ifs at h with hg
    · split at h
      next n1 n2 hv1 hv2 =>
        obtain ⟨he2, hs2, ho2⟩ := intConstVal_measure s2 n1 hv1
        obtain ⟨hek, hsk, hok⟩ := intConstVal_measure k2e n2 hv2
        split_ifs at h with heq
        · simp only [Option.some.injEq] at h
          subst h
          obtain ⟨hop, hm⟩ := hg
          have ex := esize_pos x
          have ey := esize_pos y
          rcases hop with hop | hop <;> rcases hm with hm | hm <;>
            subst hop <;> subst hm <;>
            simp [mExp, mkInt, esize, shiftCount, omegaPM, cloneE_id] <;>
              omega
        · exact binF6_mono _ _ _ r h
      next => exact binF6_mono _ _ _ r h
    · exact binF6_mono _ _ _ r h
  next => exact binF6_mono _ _ _ r h

/-- `(x*n) ± n → (x ± 1)*n` strictly decreases the measure. -/
theorem binF4_mono (op : Oper) (s1 s2 : Exp) (r : Exp × Bool)
    (h : binF.binF4 op s1 s2 = some r) :
    esize r.1 ≤ esize (.binary op s1 s2) ∧
      shiftCount r.1 ≤ shiftCount (.binary op s1 s2) ∧
      omegaPM r.1 ≤ omegaPM (.binary op s1 s2) ∧
      mExp r.1 < mExp (.binary op s1 s2) := by
  simp only [binF.binF4] at h
  split at h
  next m x k1e =>
    split_ifs at h with hg
    · split at h
      next n1 n2 hv1 hv2 =>
        obtain ⟨he2, hs2, ho2⟩ := intConstVal_measure s2 n1 hv1
        obtain ⟨hek, hsk, hok⟩ := intConstVal_measure k1e n2 hv2
        split_ifs at h with heq
        · simp only [Option.some.injEq] at h
          subst h
          obtain ⟨hop, hm⟩ := hg
          have ex := esize_pos x
          rcases hop with hop | hop <;> rcases hm with hm | hm <;>
            subst hop <;> subst hm <;>
            simp [mExp, mkInt, esize, shiftCount, omegaPM, cloneE_id] <;>
              omega
        · exact binF5_mono _ _ _ r h
      next => exact binF5_mono _ _ _ r h
    · exact binF5_mono _ _ _ r h
  next => exact binF5_mono _ _ _ r h

/-- The `opLNot`-over-equality flips strictly decrease the measure. -/
theorem binF3_mono (op : Oper) (s1 s2 : Exp) (r : Exp × Bool)
    (h : binF.binF3 op s1 s2 = some r) :
    esize r.1 ≤ esize (.binary op s1 s2) ∧
      shiftCount r.1 ≤ shiftCount (.binary op s1 s2) ∧
      omegaPM r.1 ≤ omegaPM (.binary op s1 s2) ∧
      mExp r.1 < mExp (.binary op s1 s2) := by
  have e2 := esize_pos s2
  simp only [binF.binF3] at h
  split_ifs at h with h1 h2
  · simp only [Option.some.injEq] at h
    subst h
    obtain ⟨hes, hss, hos⟩ := setOperE_measure s1 .opNotEqual
      (by simp [h1.2]) (by simp)
    simp only [mExp]
    simp [esize, shiftCount, omegaPM, hes, hss, hos] <;> omega
  · simp only [Option.some.injEq] at h
    subst h
    obtain ⟨hes, hss, hos⟩ := setOperE_measure s1 .opEquals
      (by simp [h2.2]) (by simp)
    simp only [mExp]
    simp [esize, shiftCount, omegaPM, hes, hss, hos] <;> omega
  · exact binF4_mono _ _ _ r h

/-- `(x*n)*m → x*(n*m)` strictly decreases the measure. -/
theorem binF2_mono (op : Oper) (s1 s2 : Exp) (r : Exp × Bool)
    (h : binF.binF2 op s1 s2 = some r) :
    esize r.1 ≤ esize (.binary op s1 s2) ∧
      shiftCount r.1 ≤ shiftCount (.binary op s1 s2) ∧
      omegaPM r.1 ≤ omegaPM (.binary op s1 s2) ∧
      mExp r.1 < mExp (.binary op s1 s2) := by
  simp only [binF.binF2] at h
  split at h
  next x k1e m hv =>
    obtain ⟨he2, hs2, ho2⟩ := intConstVal_measure s2 m hv
    split_ifs at h with hq
    · split at h
      next n cs hparts =>
        have := intConstParts_shape k1e n cs hparts
        subst this
        simp only [Option.some.injEq] at h
        subst h
        have ex := esize_pos x
        simp [mExp, esize, shiftCount, omegaPM] <;> omega
      next => exact binF3_mono _ _ _ r h
    · exact binF3_mono _ _ _ r h
  next => exact binF3_mono _ _ _ r h

/-- The trailing rules of `Binary::polySimplify` strictly decrease the
measure. -/
theorem binF_mono (op : Oper) (s1 s2 : Exp) (r : Exp × Bool)
    (h : binF op s1 s2 = some r) :
    esize r.1 ≤ esize (.binary op s1 s2) ∧
      shiftCount r.1 ≤ shiftCount (.binary op s1 s2) ∧
      omegaPM r.1 ≤ omegaPM (.binary op s1 s2) ∧
      mExp r.1 < mExp (.binary op s1 s2) := by
  simp only [binF] at h
  split_ifs at h with h1
  · simp only [Option.some.injEq] at h
    subst h
    have e2 := esize_pos s2
    simp [mExp, esize, shiftCount, omegaPM] <;> omega
  · split at h
    next y k2e =>
      split_ifs at h with hq
      · split at h
        next n cs hparts =>
          have := intConstParts_shape k2e n cs hparts
          subst this
          simp only [Option.some.injEq] at h
          subst h
          have e1 := esize_pos s1
          have ey := esize_pos y
          simp [mExp, esize, shiftCount, omegaPM] <;> omega
        next => exact binF2_mono _ _ _ r h
      · exact binF2_mono _ _ _ r h
    next => exact binF2_mono _ _ _ r h

end Exp

namespace Exp

/-- The whole binary rule sequence satisfies the step invariant, given that
the `and`/`or` early-return callback does. -/
theorem binStep_mono (rec : Exp → Bool → Exp × Bool)
    (hrec : ∀ x bb, StepOK x (rec x bb) bb) (op : Oper) (s1 s2 : Exp)
    (b : Bool) : StepOK (.binary op s1 s2) (binStep rec op s1 s2 b) b := by
  obtain ⟨pe, ps, po⟩ := binCommute_measure op s1 s2
  obtain ⟨qe, qs, qo⟩ :=
    binFlip_measure op (binCommute op s1 s2).1 (binCommute op s1 s2).2
  have Pe : esize (.binary op (binCommute op s1 s2).1
      (binCommute op s1 s2).2) = esize (.binary op s1 s2) := pe
  have Pm : mExp (.binary op (binCommute op s1 s2).1
      (binCommute op s1 s2).2) = mExp (.binary op s1 s2) := by
    simp only [mExp]
    rw [pe, ps, po]
  have Qe : esize (.binary
      (binFlip op (binCommute op s1 s2).1 (binCommute op s1 s2).2).1
      (binFlip op (binCommute op s1 s2).1 (binCommute op s1 s2).2).2.1
      (binFlip op (binCommute op s1 s2).1 (binCommute op s1 s2).2).2.2) =
      esize (.binary op s1 s2) := by rw [qe, pe]
  have Qs : shiftCount (.binary
      (binFlip op (binCommute op s1 s2).1 (binCommute op s1 s2).2).1
      (binFlip op (binCommute op s1 s2).1 (binCommute op s1 s2).2).2.1
      (binFlip op (binCommute op s1 s2).1 (binCommute op s1 s2).2).2.2) =
      shiftCount (.binary op s1 s2) := by rw [qs, ps]
  have Qo : omegaPM (.binary
      (binFlip op (binCommute op s1 s2).1 (binCommute op s1 s2).2).1
      (binFlip op (binCommute op s1 s2).1 (binCommute op s1 s2).2).2.1
      (binFlip op (binCommute op s1 s2).1 (binCommute op s1 s2).2).2.2) =
      omegaPM (.binary op s1 s2) := by rw [qo, po]
  have Qm : mExp (.binary
      (binFlip op (binCommute op s1 s2).1 (binCommute op s1 s2).2).1
      (binFlip op (binCommute op s1 s2).1 (binCommute op s1 s2).2).2.1
      (binFlip op (binCommute op s1 s2).1 (binCommute op s1 s2).2).2.2) =
      mExp (.binary op s1 s2) := by
    simp only [mExp]
    rw [Qe, Qs, Qo]
  simp only [binStep]
  split
  next r hr =>
    obtain ⟨h1, h2, h3, h4⟩ := binA_mono op s1 s2 r hr
    exact ⟨h1, h2, h3, fun _ => Or.inr h4⟩
  next =>
    split
    next r hr =>
      obtain ⟨h1, h2, h3, h4⟩ := binD1_mono op _ _ r hr
      rw [pe] at h1
      rw [ps] at h2
      rw [po] at h3
      rw [Pm] at h4
      exact ⟨h1, h2, h3, fun _ => Or.inr h4⟩
    next =>
      split
      next r hr =>
        obtain ⟨h1, h2, h3, h4⟩ := binD2_mono _ _ _ r hr
        rw [Qe] at h1
        rw [Qs] at h2
        rw [Qo] at h3
        rw [Qm] at h4
        exact ⟨h1, h2, h3, fun _ => Or.inr h4⟩
      next =>
        split
        next r hr =>
          obtain ⟨h1, h2, h3, h4⟩ := binD3_mono _ _ _ r hr
          rw [Qe] at h1
          rw [Qs] at h2
          rw [Qo] at h3
          rw [Qm] at h4
          exact ⟨h1, h2, h3, fun _ => Or.inr h4⟩
        next =>
          split_ifs with hcond
          · obtain ⟨a1, a2, a3, a4⟩ :=
              hrec (binFlip op (binCommute op s1 s2).1
                (binCommute op s1 s2).2).2.1 b
            obtain ⟨c1, c2, c3, c4⟩ :=
              hrec (binFlip op (binCommute op s1 s2).1
                (binCommute op s1 s2).2).2.2
                (rec (binFlip op (binCommute op s1 s2).1
                  (binCommute op s1 s2).2).2.1 b).2
            rcases hcond with hc | hc <;>
              [rw [hc] at Qe Qs Qo Qm; rw [hc] at Qe Qs Qo Qm] <;>
              (constructor
               · rw [← Qe]
                 simp only [esize]
                 omega
               constructor
               · rw [← Qs]
                 simp only [shiftCount, hc]
                 simp
                 omega
               constructor
               · rw [← Qo]
                 simp only [omegaPM, hc]
                 simp
                 omega
               · intro hflag
                 rcases c4 hflag with hfl | hstrict
                 · rcases a4 hfl with hb | hstrict1
                   · exact Or.inl hb
                   · refine Or.inr ?_
                     rw [← Qm]
                     simp only [mExp, esize, shiftCount, omegaPM, hc]
                     simp only [mExp] at hstrict1 a1 a2 a3 c1 c2 c3
                     simp
                     omega
                 · refine Or.inr ?_
                   rw [← Qm]
                   simp only [mExp, esize, shiftCount, omegaPM, hc]
                   simp only [mExp] at hstrict a1 a2 a3 c1 c2 c3
                   simp
                   omega)
          · split
            next r hr =>
              obtain ⟨h1, h2, h3, h4⟩ := binF_mono _ _ _ r hr
              rw [Qe] at h1
              rw [Qs] at h2
              rw [Qo] at h3
              rw [Qm] at h4
              exact ⟨h1, h2, h3, fun _ => Or.inr h4⟩
            next =>
              exact ⟨le_of_eq Qe, le_of_eq Qs, le_of_eq Qo,
                fun hb => Or.inl hb⟩

end Exp

namespace Exp

/-- The comparison-negation table maps comparison tags to comparison tags
(never shifts or plus-minus, on either side). -/
theorem negCmp_ops (o n : Oper) (h : negCmp o = some n) :
    (¬ (o = .opShiftL ∨ o = .opShiftR) ∧ ¬ (o = .opPlus ∨ o = .opMinus)) ∧
      (¬ (n = .opShiftL ∨ n = .opShiftR) ∧ ¬ (n = .opPlus ∨ n = .opMinus)) := by
  cases o <;> simp [negCmp] at h <;> subst h <;> simp

/-- The unary rule step satisfies the invariant, given that the extra
child pass of the `opMemOf`/`opRegOf` rule does. -/
theorem unSwitch_mono (again : Exp → Bool → Exp × Bool)
    (hagain : ∀ x bb, StepOK x (again x bb) bb) (op : Oper) (c : Exp)
    (b : Bool) : StepOK (.unary op c) (unStep.unSwitch again op c b) b := by
  have ec := esize_pos c
  have mc : esize c ≤ mExp c := by simp only [mExp]; omega
  simp only [unStep.unSwitch]
  by_cases h1 : op = .opNeg ∨ op = .opNot ∨ op = .opLNot ∨ op = .opSize
  · rw [if_pos h1]
    split
    next k cs hparts =>
      have := intConstParts_shape c k cs hparts
      subst this
      refine ⟨?_, ?_, ?_, fun _ => Or.inr ?_⟩ <;>
        simp [mExp, esize, shiftCount, omegaPM] <;> omega
    next =>
      by_cases hsame : op = c.getOper
      · rw [if_pos hsame]
        split
        next cc hcc =>
          obtain ⟨m1, m2, m3⟩ := sub1_measure c cc hcc
          refine ⟨?_, ?_, ?_, fun _ => Or.inr ?_⟩ <;>
            simp only [mExp, esize, shiftCount, omegaPM] <;> omega
        next =>
          exact ⟨le_refl _, le_refl _, le_refl _, fun hb => Or.inl hb⟩
      · rw [if_neg hsame]
        exact ⟨le_refl _, le_refl _, le_refl _, fun hb => Or.inl hb⟩
  · rw [if_neg h1]
    by_cases h2 : op = .opAddrOf
    · rw [if_pos h2]
      by_cases hmem : c.getOper = .opMemOf
      · rw [if_pos hmem]
        split
        next cc hcc =>
          obtain ⟨m1, m2, m3⟩ := sub1_measure c cc hcc
          refine ⟨?_, ?_, ?_, fun _ => Or.inr ?_⟩ <;>
            simp only [mExp, esize, shiftCount, omegaPM] <;> omega
        next =>
          exact ⟨le_refl _, le_refl _, le_refl _, fun hb => Or.inl hb⟩
      · rw [if_neg hmem]
        exact ⟨le_refl _, le_refl _, le_refl _, fun hb => Or.inl hb⟩
    · rw [if_neg h2]
      by_cases h3 : op = .opMemOf ∨ op = .opRegOf
      · rw [if_pos h3]
        obtain ⟨a1, a2, a3, a4⟩ := hagain c b
        refine ⟨?_, ?_, ?_, ?_⟩
        · simp only [esize]
          omega
        · simp only [shiftCount]
          omega
        · simp only [omegaPM]
          omega
        · intro hflag
          rcases a4 hflag with hb | hstrict
          · exact Or.inl hb
          · refine Or.inr ?_
            simp only [mExp, esize, shiftCount, omegaPM] at hstrict ⊢
            omega
      · rw [if_neg h3]
        exact ⟨le_refl _, le_refl _, le_refl _, fun hb => Or.inl hb⟩

/-- The full unary rule step (comparison pushdown first) satisfies the
invariant. -/
theorem unStep_mono (again : Exp → Bool → Exp × Bool)
    (hagain : ∀ x bb, StepOK x (again x bb) bb) (op : Oper) (c : Exp)
    (b : Bool) : StepOK (.unary op c) (unStep again op c b) b := by
  have ec := esize_pos c
  simp only [unStep]
  split_ifs with h1
  · split
    next newOp hneg =>
      obtain ⟨hold, hnew⟩ := negCmp_ops _ newOp hneg
      obtain ⟨hes, hss, hos⟩ := setOperE_measure c newOp hold hnew
      refine ⟨?_, ?_, ?_, fun _ => Or.inr ?_⟩ <;>
        simp only [mExp, esize, shiftCount, omegaPM, hes, hss, hos] <;> omega
    next => exact unSwitch_mono again hagain op c b
  · exact unSwitch_mono again hagain op c b

/-- The ternary rule step satisfies the invariant. -/
theorem ternTruncs_mono (op : Oper) (a b2 c : Exp) (b : Bool) :
    StepOK (.ternary op a b2 c) (ternStep.ternTruncs op a b2 c b) b := by
  have ea := esize_pos a
  have eb := esize_pos b2
  have ec := esize_pos c
  simp only [ternStep.ternTruncs]
  split
  next tsz k hva hvb hvc =>
    obtain ⟨h1, h2, h3⟩ := intConstVal_measure a 32 hva
    obtain ⟨h4, h5, h6⟩ := intConstVal_measure b2 tsz hvb
    obtain ⟨h7, h8, h9⟩ := intConstVal_measure c k hvc
    split_ifs <;>
      refine ⟨?_, ?_, ?_, ?_⟩ <;>
      first
        | (intro hb; exact Or.inl hb)
        | (try intro hflag
           try refine Or.inr ?_
           simp [mExp, mkInt, esize, shiftCount, omegaPM] <;> omega)
  next =>
    exact ⟨le_refl _, le_refl _, le_refl _, fun hb => Or.inl hb⟩

/-- The ternary rules strictly decrease the measure when they fire. -/
theorem ternStep_mono (op : Oper) (a b2 c : Exp) (b : Bool) :
    StepOK (.ternary op a b2 c) (ternStep op a b2 c b) b := by
  have ea := esize_pos a
  have eb := esize_pos b2
  have ec := esize_pos c
  have ma : esize a ≤ mExp a := by simp only [mExp]; omega
  have mb : esize b2 ≤ mExp b2 := by simp only [mExp]; omega
  have mc : esize c ≤ mExp c := by simp only [mExp]; omega
  simp only [ternStep]
  split_ifs with h1 h2 h3 h4
  · refine ⟨?_, ?_, ?_, fun _ => Or.inr ?_⟩ <;>
      simp only [mExp, esize, shiftCount, omegaPM] <;> omega
  · refine ⟨?_, ?_, ?_, fun _ => Or.inr ?_⟩ <;>
      simp only [mExp, esize, shiftCount, omegaPM] <;> omega
  · refine ⟨?_, ?_, ?_, fun _ => Or.inr ?_⟩ <;>
      simp only [mExp, esize, shiftCount, omegaPM] <;> omega
  · refine ⟨?_, ?_, ?_, fun _ => Or.inr ?_⟩ <;>
      simp only [mExp, esize, shiftCount, omegaPM] <;> omega
  all_goals
    (split
     · rename_i tsz k hva hvb hvc
       obtain ⟨g1, g2, g3⟩ := intConstVal_measure a 32 hva
       obtain ⟨g4, g5, g6⟩ := intConstVal_measure b2 tsz hvb
       obtain ⟨g7, g8, g9⟩ := intConstVal_measure c k hvc
       first
         | exact ternTruncs_mono op a b2 c b
         | (split_ifs <;>
            first
              | exact ternTruncs_mono op a b2 c b
              | (refine ⟨?_, ?_, ?_, fun _ => Or.inr ?_⟩ <;>
                 simp [mExp, mkInt, esize, shiftCount, omegaPM] <;> omega))
     · exact ternTruncs_mono op a b2 c b)

end Exp

namespace Exp

/-- The `Location` post-rule preserves the step invariant: when the
`m[a[x]] → x` collapse fires it removes two nodes, so the measure drops
strictly below the already-bounded intermediate result. -/
theorem locStep_mono (e : Exp) (u : Exp × Bool) (b : Bool)
    (h : StepOK e u b) : StepOK e (locStep u) b := by
  obtain ⟨h1, h2, h3, h4⟩ := h
  simp only [locStep]
  split
  next x heq =>
    rw [heq] at h1 h2 h3
    refine ⟨?_, ?_, ?_, fun _ => Or.inr ?_⟩
    · simp only [esize] at h1 ⊢
      omega
    · simp only [shiftCount] at h2 ⊢
      omega
    · simp only [omegaPM] at h3 ⊢
      omega
    · simp only [mExp, esize, shiftCount, omegaPM] at h1 h2 h3 ⊢
      omega
  next => exact ⟨h1, h2, h3, h4⟩

/-- One `polySimplify` pass satisfies the step invariant, given that the
nested calls do. -/
theorem passBody_mono (rec : Bool → Exp → Bool → Exp × Bool)
    (hrec : ∀ drv x bb, StepOK x (rec drv x bb) bb) (e : Exp) (b : Bool) :
    StepOK e (passBody rec e b) b := by
  cases e with
  | const op v cs =>
    exact ⟨le_refl _, le_refl _, le_refl _, fun hb => Or.inl hb⟩
  | terminal op =>
    exact ⟨le_refl _, le_refl _, le_refl _, fun hb => Or.inl hb⟩
  | unary op c =>
    simp only [passBody]
    obtain ⟨r1, r2, r3, r4⟩ := hrec false c b
    obtain ⟨u1, u2, u3, u4⟩ := unStep_mono (fun x bb => rec false x bb)
      (fun x bb => hrec false x bb) op (rec false c b).1 (rec false c b).2
    have hle : mExp (.unary op (rec false c b).1) ≤ mExp (.unary op c) := by
      simp only [mExp, esize, shiftCount, omegaPM]
      omega
    have hcore : StepOK (.unary op c)
        (unStep (fun x bb => rec false x bb) op (rec false c b).1
          (rec false c b).2) b := by
      refine ⟨?_, ?_, ?_, ?_⟩
      · refine le_trans u1 ?_
        simp only [esize]
        omega
      · refine le_trans u2 ?_
        simp only [shiftCount]
        omega
      · refine le_trans u3 ?_
        simp only [omegaPM]
        omega
      · intro hfl
        have hres : mExp (unStep (fun x bb => rec false x bb) op
            (rec false c b).1 (rec false c b).2).1 ≤
            mExp (.unary op (rec false c b).1) := by
          simp only [mExp]
          omega
        rcases u4 hfl with hmid | hstrict
        · rcases r4 hmid with hb | hstrict1
          · exact Or.inl hb
          · refine Or.inr ?_
            have : mExp (.unary op (rec false c b).1) <
                mExp (.unary op c) := by
              simp only [mExp, esize, shiftCount, omegaPM] at hstrict1 ⊢
              omega
            omega
        · exact Or.inr (by omega)
    split_ifs with hloc
    · exact locStep_mono _ _ _ hcore
    · exact hcore
  | binary op x y =>
    simp only [passBody]
    obtain ⟨r1, r2, r3, r4⟩ := hrec false x b
    obtain ⟨s1, s2, s3, s4⟩ := hrec false y (rec false x b).2
    obtain ⟨u1, u2, u3, u4⟩ := binStep_mono (fun z bb => rec false z bb)
      (fun z bb => hrec false z bb) op (rec false x b).1
      (rec false y (rec false x b).2).1 (rec false y (rec false x b).2).2
    have hee : esize (.binary op (rec false x b).1
        (rec false y (rec false x b).2).1) ≤ esize (.binary op x y) := by
      simp only [esize]
      omega
    have hss : shiftCount (.binary op (rec false x b).1
        (rec false y (rec false x b).2).1) ≤ shiftCount (.binary op x y) := by
      simp only [shiftCount]
      omega
    have hoo : omegaPM (.binary op (rec false x b).1
        (rec false y (rec false x b).2).1) ≤ omegaPM (.binary op x y) := by
      simp only [omegaPM, esize]
      split_ifs <;> omega
    have hmm : mExp (.binary op (rec false x b).1
        (rec false y (rec false x b).2).1) ≤ mExp (.binary op x y) := by
      simp only [mExp]
      omega
    refine ⟨le_trans u1 hee, le_trans u2 hss, le_trans u3 hoo, ?_⟩
    intro hfl
    have hres : mExp (binStep (fun z bb => rec false z bb) op
        (rec false x b).1 (rec false y (rec false x b).2).1
        (rec false y (rec false x b).2).2).1 ≤
        mExp (.binary op (rec false x b).1
          (rec false y (rec false x b).2).1) := by
      simp only [mExp]
      omega
    rcases u4 hfl with hmid | hstrict
    · rcases s4 hmid with hmid1 | hstrict2
      · rcases r4 hmid1 with hb | hstrict1
        · exact Or.inl hb
        · refine Or.inr ?_
          have : mExp (.binary op (rec false x b).1
              (rec false y (rec false x b).2).1) <
              mExp (.binary op x y) := by
            simp only [mExp, esize, shiftCount, omegaPM] at hstrict1 ⊢
            split_ifs <;> omega
          omega
      · refine Or.inr ?_
        have : mExp (.binary op (rec false x b).1
            (rec false y (rec false x b).2).1) <
            mExp (.binary op x y) := by
          simp only [mExp, esize, shiftCount, omegaPM] at hstrict2 ⊢
          split_ifs <;> omega
        omega
    · exact Or.inr (by omega)
  | ternary op x y z =>
    simp only [passBody]
    obtain ⟨r1, r2, r3, r4⟩ := hrec false x b
    obtain ⟨s1, s2, s3, s4⟩ := hrec false y (rec false x b).2
    obtain ⟨t1, t2, t3, t4⟩ :=
      hrec false z (rec false y (rec false x b).2).2
    obtain ⟨u1, u2, u3, u4⟩ := ternStep_mono op (rec false x b).1
      (rec false y (rec false x b).2).1
      (rec false z (rec false y (rec false x b).2).2).1
      (rec false z (rec false y (rec false x b).2).2).2
    have hee : esize (.ternary op (rec false x b).1
        (rec false y (rec false x b).2).1
        (rec false z (rec false y (rec false x b).2).2).1) ≤
        esize (.ternary op x y z) := by
      simp only [esize]
      omega
    have hss : shiftCount (.ternary op (rec false x b).1
        (rec false y (rec false x b).2).1
        (rec false z (rec false y (rec false x b).2).2).1) ≤
        shiftCount (.ternary op x y z) := by
      simp only [shiftCount]
      omega
    have hoo : omegaPM (.ternary op (rec false x b).1
        (rec false y (rec false x b).2).1
        (rec false z (rec false y (rec false x b).2).2).1) ≤
        omegaPM (.ternary op x y z) := by
      simp only [omegaPM]
      omega
    have hmm : mExp (.ternary op (rec false x b).1
        (rec false y (rec false x b).2).1
        (rec false z (rec false y (rec false x b).2).2).1) ≤
        mExp (.ternary op x y z) := by
      simp only [mExp]
      omega
    refine ⟨le_trans u1 hee, le_trans u2 hss, le_trans u3 hoo, ?_⟩
    intro hfl
    have hres : mExp (ternStep op (rec false x b).1
        (rec false y (rec false x b).2).1
        (rec false z (rec false y (rec false x b).2).2).1
        (rec false z (rec false y (rec false x b).2).2).2).1 ≤
        mExp (.ternary op (rec false x b).1
          (rec false y (rec false x b).2).1
          (rec false z (rec false y (rec false x b).2).2).1) := by
      simp only [mExp]
      omega
    rcases u4 hfl with hmid | hstrict
    · rcases t4 hmid with hmid2 | hstrict3
      · rcases s4 hmid2 with hmid1 | hstrict2
        · rcases r4 hmid1 with hb | hstrict1
          · exact Or.inl hb
          · refine Or.inr ?_
            have : mExp (.ternary op (rec false x b).1
                (rec false y (rec false x b).2).1
                (rec false z (rec false y (rec false x b).2).2).1) <
                mExp (.ternary op x y z) := by
              simp only [mExp, esize, shiftCount, omegaPM] at hstrict1 ⊢
              omega
            omega
        · refine Or.inr ?_
          have : mExp (.ternary op (rec false x b).1
              (rec false y (rec false x b).2).1
              (rec false z (rec false y (rec false x b).2).2).1) <
              mExp (.ternary op x y z) := by
            simp only [mExp, esize, shiftCount, omegaPM] at hstrict2 ⊢
            omega
          omega
      · refine Or.inr ?_
        have : mExp (.ternary op (rec false x b).1
            (rec false y (rec false x b).2).1
            (rec false z (rec false y (rec false x b).2).2).1) <
            mExp (.ternary op x y z) := by
          simp only [mExp, esize, shiftCount, omegaPM] at hstrict3 ⊢
          omega
        omega
    · exact Or.inr (by omega)
  | typedExp t c =>
    have ec := esize_pos c
    have mc : esize c ≤ mExp c := by simp only [mExp]; omega
    simp only [passBody]
    split_ifs with hreg
    · refine ⟨?_, ?_, ?_, fun _ => Or.inr ?_⟩ <;>
        simp only [mExp, esize, shiftCount, omegaPM] <;> omega
    · obtain ⟨r1, r2, r3, _⟩ := hrec true c false
      refine ⟨?_, ?_, ?_, fun hb => Or.inl hb⟩ <;>
        simp only [esize, shiftCount, omegaPM] <;> omega
  | refExp c d =>
    have ec := esize_pos c
    have mc : esize c ≤ mExp c := by simp only [mExp]; omega
    simp only [passBody]
    obtain ⟨r1, r2, r3, r4⟩ := hrec false c b
    split_ifs with hfl hdf
    · refine ⟨?_, ?_, ?_, ?_⟩
      · simp only [esize]
        omega
      · simp only [shiftCount]
        omega
      · simp only [omegaPM]
        omega
      · intro _
        rcases r4 hfl with hb | hstrict
        · exact Or.inl hb
        · refine Or.inr ?_
          simp only [mExp, esize, shiftCount, omegaPM] at hstrict ⊢
          omega
    · refine ⟨?_, ?_, ?_, fun _ => Or.inr ?_⟩ <;>
        simp only [mExp, mkInt, esize, shiftCount, omegaPM] <;> omega
    · refine ⟨?_, ?_, ?_, fun hb => by simp at hb⟩ <;>
        simp only [esize, shiftCount, omegaPM] <;> omega

/-- The engine satisfies the step invariant at every fuel, in both pass and
driver mode: components never grow, and a reported modification not already
present in the incoming flag strictly shrinks the measure. -/
theorem runF_mono : ∀ f drv e b, StepOK e (runF f drv e b) b := by
  intro f
  induction f with
  | zero =>
    intro drv e b
    cases drv <;>
      exact ⟨le_refl _, le_refl _, le_refl _, fun hb => Or.inl hb⟩
  | succ f ih =>
    intro drv e b
    cases drv with
    | false =>
      simp only [runF]
      exact passBody_mono (fun drv x bb => runF f drv x bb)
        (fun drv x bb => ih drv x bb) e b
    | true =>
      simp only [runF]
      obtain ⟨r1, r2, r3, r4⟩ := ih false e false
      split_ifs with hflag
      · obtain ⟨t1, t2, t3, t4⟩ := ih true (runF f false e false).1 false
        refine ⟨le_trans t1 r1, le_trans t2 r2, le_trans t3 r3, ?_⟩
        intro hf2
        rcases t4 hf2 with hc | hstrict
        · exact absurd hc (by simp)
        · refine Or.inr ?_
          have : mExp (runF f false e false).1 ≤ mExp e := by
            simp only [mExp]
            omega
          omega
      · exact ⟨r1, r2, r3, fun hb => by simp at hb⟩

end Exp

namespace Exp

/-- Unrolling the driver from the front. -/
theorem driverIter_shift (e : Exp) : ∀ k,
    driverIter k (passOnce e).1 = driverIter (k + 1) e := by
  intro k
  induction k with
  | zero => rfl
  | succ k ihk => simp only [driverIter, ihk]

/-- The driver loop reaches a quiescent pass after finitely many
iterations: each flagged pass strictly decreases the measure. -/
theorem driver_quiesces (e : Exp) :
    ∃ k, (passOnce (driverIter k e)).2 = false := by
  suffices h : ∀ n e, mExp e ≤ n → ∃ k, (passOnce (driverIter k e)).2 = false
    from h (mExp e) e (le_refl _)
  intro n
  induction n with
  | zero =>
    intro e he
    have h1 := esize_pos e
    have h2 : esize e ≤ mExp e := by simp only [mExp]; omega
    omega
  | succ n ihn =>
    intro e he
    by_cases hq : (passOnce e).2 = false
    · exact ⟨0, hq⟩
    · obtain ⟨_, _, _, h4⟩ := runF_mono (fuelFor e) false e false
      rw [show runF (fuelFor e) false e false = passOnce e from rfl] at h4
      rcases h4 (by simpa using hq) with hc | hlt
      · simp at hc
      · obtain ⟨k, hk⟩ := ihn (passOnce e).1 (by omega)
        rw [driverIter_shift e k] at hk
        exact ⟨k + 1, hk⟩

end Exp

namespace Exp

/-- The embedded pass performs `Location::polySimplify`'s counted
`m[a[x]] → x` collapse (exp.cpp:3820-3826, spec 4.G, scenario S2): on
`m[a[pc]]` one pass rewrites to `pc` and sets the modification flag, and
the driver folds the tree accordingly. -/
theorem locRule_collapses_memOf_addrOf :
    passOnce (.unary .opMemOf (.unary .opAddrOf (.terminal .opPC))) =
      (.terminal .opPC, true) ∧
    simplify (.unary .opMemOf (.unary .opAddrOf (.terminal .opPC))) =
      .terminal .opPC := by
  constructor <;> decide

/-- **C4**: the simplification driver terminates.  A `polySimplify` pass
never grows the tree, and a pass that sets the modification flag (beyond an
already-set incoming flag) strictly decreases the termination measure
`mExp`; hence, iterating passes from any expression reaches, after finitely
many iterations, a pass whose flag stays `false` and the driver loop of
`Exp::simplify` stops.  In particular the uncounted commutation
canonicalisations leave the flag clear even when they reorder the tree, as
the third conjunct exhibits on `exOscill = a[g1{-}] + a[g2{-}]` (whose pass
swaps the operands yet reports no modification). -/
theorem C4_driver_terminates :
    (∀ f e b, esize (runF f false e b).1 ≤ esize e ∧
        ((runF f false e b).2 = true → b = true ∨
          mExp (runF f false e b).1 < mExp e)) ∧
    (∀ e, ∃ k, (passOnce (driverIter k e)).2 = false) ∧
    ((passOnce exOscill).2 = false ∧ (passOnce exOscill).1 ≠ exOscill) :=
  ⟨fun f e b => ⟨(runF_mono f false e b).1, (runF_mono f false e b).2.2.2⟩,
   fun e => driver_quiesces e,
   by decide⟩

/-- Witness for `C4_driver_terminates`: the strict-decrease implication
discharged on the flagged pass over `4 >>A 1`, and quiescence instantiated
on the oscillating sum of global addresses. -/
theorem C4_driver_terminates_witness :
    (false = true ∨
      mExp (runF (fuelFor exC2) false exC2 false).1 < mExp exC2) ∧
    (∃ k, (passOnce (driverIter k exOscill)).2 = false) :=
  ⟨(C4_driver_terminates.1 (fuelFor exC2) exC2 false).2 (by decide),
   C4_driver_terminates.2.1 exOscill⟩

end Exp
